import Mathlib

/-!
Verification model of `seo-migration/generate_inventories.py`.

The Python source is shallowly embedded here.  Strings are modelled as Lean
`String`s (lists of unicode scalar characters); all character-level operations
(`str.lower`, `str.strip`, slicing, `find`, …) are modelled on `List Char`.
`urllib.parse.urlsplit` / `urlparse` are modelled after CPython's
`urllib/parse.py` (3.11 line): leading WHATWG control/space stripping, tab/CR/LF
removal, scheme detection requiring a leading ASCII letter, netloc splitting,
and the "Invalid IPv6 URL" ValueError raised on unbalanced square brackets in
the netloc.  A raised `ValueError` is modelled as `none`; `some` results model
normal returns.  Case mapping is modelled for ASCII (the inputs of interest);
the NFKC netloc check and the bracketed-host validation of CPython ≥ 3.11,
which only concern non-ASCII netlocs or netlocs containing `[`…`]`, are outside
the model, and the percent-decoder of `parse_qs` decodes single bytes.
-/

namespace SeoInv

/-! ### Python string primitives (character-list level) -/

/-- ASCII lower-casing of one character, as `str.lower` acts on ASCII. -/
def pyLowerChar (c : Char) : Char :=
  if 65 ≤ c.toNat ∧ c.toNat ≤ 90 then Char.ofNat (c.toNat + 32) else c

def pyLowerL (l : List Char) : List Char := l.map pyLowerChar

/-- `s.lower()` (ASCII model). -/
def pyLower (s : String) : String := String.mk (pyLowerL s.data)

/-- Drop matching characters from the end of a list (`str.rstrip`). -/
def dropTail (p : Char → Bool) (l : List Char) : List Char :=
  (l.reverse.dropWhile p).reverse

/-- Does `pat` occur at the head of `l`? -/
def leadMatch : List Char → List Char → Bool
  | [], _ => true
  | _ :: _, [] => false
  | a :: as, b :: bs => (a == b) && leadMatch as bs

/-- Does `pat` occur anywhere in `l`?  (`pat in s` for strings.) -/
def hasSub : List Char → List Char → Bool
  | [], pat => leadMatch pat []
  | c :: t, pat => leadMatch pat (c :: t) || hasSub t pat

/-- `sub in s` (substring containment). -/
def pyContainsSub (s sub : String) : Bool := hasSub s.data sub.data

/-- `s.startswith(pre)`. -/
def strStarts (s pre : String) : Bool := leadMatch pre.data s.data

/-- `s.endswith(suf)`. -/
def strEnds (s suf : String) : Bool := leadMatch suf.data.reverse s.data.reverse

/-- Index of the first occurrence of character `ch` (`str.find`). -/
def idxOfChar : List Char → Char → Option Nat
  | [], _ => none
  | c :: t, ch => if c = ch then some 0 else (idxOfChar t ch).map (· + 1)

/-- Index of the last occurrence of character `ch` (`str.rfind`). -/
def lastIdxOfChar : List Char → Char → Option Nat
  | [], _ => none
  | c :: t, ch =>
    match lastIdxOfChar t ch with
    | some i => some (i + 1)
    | none => if c = ch then some 0 else none

/-- `str.find(ch, start)` restricted to found-or-not from a start index. -/
def idxOfCharFrom (l : List Char) (ch : Char) (start : Nat) : Option Nat :=
  (idxOfChar (l.drop start) ch).map (· + start)

/-- `s.split(ch, 1)`: text before the first `ch` and text after it
(whole string and `[]` when `ch` is absent). -/
def splitOnceChar (l : List Char) (ch : Char) : List Char × List Char :=
  match idxOfChar l ch with
  | none => (l, [])
  | some i => (l.take i, l.drop (i + 1))

/-- Index of the first occurrence of the substring `pat` in `l`. -/
def subIdx : List Char → List Char → Option Nat
  | [], pat => if leadMatch pat [] then some 0 else none
  | c :: t, pat =>
    if leadMatch pat (c :: t) then some 0
    else (subIdx t pat).map (· + 1)

/-- Index of the last occurrence of a nonempty substring `pat` in `l`. -/
def lastSubIdx : List Char → List Char → Option Nat
  | [], _ => none
  | c :: t, pat =>
    match lastSubIdx t pat with
    | some i => some (i + 1)
    | none => if leadMatch pat (c :: t) then some 0 else none

/-- `s.split(sep)[1]` for a nonempty separator known to occur in `s`:
the text between the first occurrence of `sep` and the following
occurrence (or the end). -/
def splitSubSecond (l pat : List Char) : List Char :=
  let rest :=
    match subIdx l pat with
    | none => []
    | some i => l.drop (i + pat.length)
  match subIdx rest pat with
  | none => rest
  | some j => rest.take j

/-- `s.rsplit(sep, 1)[0]`: text before the last occurrence of `sep`
(`s` itself when `sep` is absent). -/
def beforeLastSub (l pat : List Char) : List Char :=
  match lastSubIdx l pat with
  | none => l
  | some i => l.take i

/-- Python's full split on a single character, keeping empty fields
(`"".split(c) = [""]`). -/
def pySplitChar : List Char → Char → List (List Char)
  | [], _ => [[]]
  | c :: t, ch =>
    let r := pySplitChar t ch
    if c = ch then [] :: r
    else
      match r with
      | h :: t' => (c :: h) :: t'
      | [] => [[c]]

/-- Characters stripped from the front of a URL before parsing
(WHATWG C0 control or space); CPython only lstrips these. -/
def isC0OrSpace (c : Char) : Bool := c.toNat ≤ 32

/-- ASCII tab / CR / LF, removed everywhere in a URL before parsing. -/
def isTabOrNl (c : Char) : Bool := c = '\t' || c = '\r' || c = '\n'

/-- Python whitespace for a bare `str.strip()` (ASCII model). -/
def isPySpace (c : Char) : Bool :=
  c = ' ' || c = '\t' || c = '\n' || c = '\r' || c = '\x0b' || c = '\x0c'

/-- `s.strip()` (ASCII whitespace model). -/
def pyStripWs (s : String) : String :=
  String.mk (dropTail isPySpace (s.data.dropWhile isPySpace))

/-- `s.strip("/")`. -/
def pyStripSlashL (l : List Char) : List Char :=
  dropTail (· == '/') (l.dropWhile (· == '/'))

/-- `s.rstrip("/")`. -/
def rstripSlashL (l : List Char) : List Char := dropTail (· == '/') l

/-- `s.rstrip("s")`. -/
def rstripSL (l : List Char) : List Char := dropTail (· == 's') l

/-- `sep.join(l)`. -/
def joinSep (sep : String) : List String → String
  | [] => ""
  | [x] => x
  | x :: t => x ++ sep ++ joinSep sep t

/-! ### Model of `urllib.parse` (`urlsplit`, `urlparse`, `hostname`) -/

/-- Characters allowed after the first character of a URL scheme. -/
def isSchemeChar (c : Char) : Bool :=
  c.isAlpha || c.isDigit || c = '+' || c = '-' || c = '.'

/-- Scheme detection of `urlsplit`: a leading ASCII letter followed by
scheme characters up to a `':'`.  Returns `(scheme lower-cased, rest)`;
`("", url)` when there is no scheme. -/
def schemeSplitL (l : List Char) : List Char × List Char :=
  match idxOfChar l ':' with
  | none => ([], l)
  | some i =>
    if 0 < i ∧ (l.headD ' ').isAlpha ∧ ((l.take i).drop 1).all isSchemeChar
    then (pyLowerL (l.take i), l.drop (i + 1))
    else ([], l)

/-- Delimiters ending the netloc part (`_splitnetloc`). -/
def isNetlocDelim (c : Char) : Bool := c = '/' || c = '?' || c = '#'

/-- The "Invalid IPv6 URL" condition: a `[` without `]` (or conversely)
in the netloc makes `urlsplit` raise `ValueError`. -/
def bracketMismatch (n : List Char) : Bool :=
  (n.contains '[' && !n.contains ']') || (n.contains ']' && !n.contains '[')

structure SplitResult where
  scheme : String
  netloc : String
  path : String
  query : String
  fragment : String
deriving Repr, DecidableEq

/-- Fragment and query splitting shared by both netloc branches of
`urlsplit` (first `'#'`, then `'?'` on what precedes the fragment). -/
def mkSplit (scheme netloc rest : List Char) : SplitResult :=
  let (rest2, fragment) :=
    if rest.contains '#' then splitOnceChar rest '#' else (rest, [])
  let (path, query) :=
    if rest2.contains '?' then splitOnceChar rest2 '?' else (rest2, [])
  ⟨String.mk scheme, String.mk netloc, String.mk path,
    String.mk query, String.mk fragment⟩

/-- `urllib.parse.urlsplit` on a character list.  `none` models the
raised `ValueError` "Invalid IPv6 URL": unbalanced square brackets in
the netloc, a check that fires before any other netloc validation.
Two further CPython 3.11 raising paths are NOT modelled and simply
return here: the `_checknetloc` NFKC check, which can reject a netloc
only when it contains a non-ASCII character (it returns immediately on
`netloc.isascii()`), and `_check_bracketed_host`, which validates a
bracketed host and so requires both `[` and `]` in the netloc.  The
model is therefore exact on every input whose netloc is all-ASCII and
bracket-free; theorems that assert successful parsing restrict to that
region (see `plainNetloc`), and the remaining theorems either feed
concrete all-ASCII bracket-free URLs through the pipeline or compare
two computations that share this same parser. -/
def urlsplitCore (l0 : List Char) : Option SplitResult :=
  let l1 := l0.dropWhile isC0OrSpace
  let l := l1.filter (fun c => !isTabOrNl c)
  let (scheme, rest) := schemeSplitL l
  if rest.take 2 = ['/', '/'] then
    let netloc := (rest.drop 2).takeWhile (fun c => !isNetlocDelim c)
    let rest' := (rest.drop 2).dropWhile (fun c => !isNetlocDelim c)
    if bracketMismatch netloc then none
    else some (mkSplit scheme netloc rest')
  else some (mkSplit scheme [] rest)

/-- `urllib.parse.urlsplit` on strings. -/
def urlsplitE (s : String) : Option SplitResult := urlsplitCore s.data

/-- Schemes for which `urlparse` splits `;parameters` off the path. -/
def uses_params : List String :=
  ["", "ftp", "hdl", "prospero", "http", "imap", "https", "shttp",
   "rtsp", "rtspu", "sip", "sips", "snews", "tel", "telnet", "mms", "sftp"]

/-- `_splitparams`: split `;params` off the last path segment. -/
def splitParamsL (l : List Char) : List Char × List Char :=
  if l.contains '/' then
    match lastIdxOfChar l '/' with
    | some j =>
      match idxOfCharFrom l ';' j with
      | none => (l, [])
      | some i => (l.take i, l.drop (i + 1))
    | none => (l, [])
  else
    match idxOfChar l ';' with
    | none => (l, [])
    | some i => (l.take i, l.drop (i + 1))

structure ParseResult where
  scheme : String
  netloc : String
  path : String
  params : String
  query : String
  fragment : String
deriving Repr, DecidableEq

/-- `urllib.parse.urlparse`: `urlsplit` plus parameter splitting.
`none` models a raised `ValueError`. -/
def urlparseE (s : String) : Option ParseResult :=
  match urlsplitE s with
  | none => none
  | some r =>
    if r.scheme ∈ uses_params ∧ r.path.data.contains ';' then
      let (p, par) := splitParamsL r.path.data
      some ⟨r.scheme, r.netloc, String.mk p, String.mk par, r.query, r.fragment⟩
    else
      some ⟨r.scheme, r.netloc, r.path, "", r.query, r.fragment⟩

/-- `parsed.hostname or ""`: strip userinfo at the last `'@'`, take the
bracketed host or the part before `':'`, lower-cased; `""` for a missing
hostname. -/
def hostnameOrEmpty (netloc : String) : String :=
  let hostinfo :=
    match lastIdxOfChar netloc.data '@' with
    | none => netloc.data
    | some i => netloc.data.drop (i + 1)
  let hostname :=
    match idxOfChar hostinfo '[' with
    | some i => (hostinfo.drop (i + 1)).takeWhile (fun c => !(c == ']'))
    | none => hostinfo.takeWhile (fun c => !(c == ':'))
  String.mk (pyLowerL hostname)

/-! ### The two normalisers (`normalise_path`, `normalise_url`) -/

/-- `normalise_path(url)`: extract the path of a URL, collapse to `"/"`
when empty, lower-case, and strip trailing slashes (except the root).
`none` models the `ValueError` propagated out of `urlparse`. -/
def normalise_path (url : String) : Option String :=
  match urlparseE url with
  | none => none
  | some parsed =>
    let path := let r := rstripSlashL parsed.path.data; if r = [] then ['/'] else r
    let path := pyLowerL path
    let path := if path ≠ ['/'] then rstripSlashL path else path
    some (String.mk path)

/-- `normalise_url(url)`: lower-cased `hostname + path` with the trailing
slash stripped except for the root path. -/
def normalise_url (url : String) : Option String :=
  match urlparseE url with
  | none => none
  | some parsed =>
    let host := hostnameOrEmpty parsed.netloc
    let path := parsed.path.data
    let path := if path ≠ ['/'] then rstripSlashL path else path
    some (pyLower (String.mk (host.data ++ path)))

/-! ### `parse_qs` key extraction -/

/-- Hexadecimal digit value. -/
def hexVal (c : Char) : Option Nat :=
  if '0' ≤ c ∧ c ≤ '9' then some (c.toNat - 48)
  else if 'a' ≤ c ∧ c ≤ 'f' then some (c.toNat - 87)
  else if 'A' ≤ c ∧ c ≤ 'F' then some (c.toNat - 70)
  else none

/-- `urllib.parse.unquote` (single-byte model): `%XX` becomes the
character with code `XX`; malformed escapes are left alone. -/
def pyUnquote : List Char → List Char
  | [] => []
  | '%' :: a :: b :: t =>
    match hexVal a, hexVal b with
    | some ha, some hb => Char.ofNat (16 * ha + hb) :: pyUnquote t
    | _, _ => '%' :: pyUnquote (a :: b :: t)
  | c :: t => c :: pyUnquote t

/-- `'+'` to space replacement applied before unquoting in `parse_qsl`. -/
def plusToSpace (l : List Char) : List Char :=
  l.map (fun c => if c = '+' then ' ' else c)

/-- The key contributed by one `&`-separated field of a query string:
skipped when the field is empty, has no `'='`, or has an empty value
(`keep_blank_values=False`). -/
def qsFieldKey (f : List Char) : Option String :=
  if f = [] then none
  else
    match idxOfChar f '=' with
    | none => none
    | some i =>
      if f.drop (i + 1) = [] then none
      else some (String.mk (pyUnquote (plusToSpace (f.take i))))

def dedupGo (seen : List String) : List String → List String
  | [] => []
  | k :: t => if k ∈ seen then dedupGo seen t else k :: dedupGo (k :: seen) t

/-- First-occurrence-ordered, deduplicated keys: `list(parse_qs(q).keys())`. -/
def qsKeys (q : String) : List String :=
  dedupGo [] ((pySplitChar q.data '&').filterMap qsFieldKey)

/-! ### `classify_old_url` -/

/-- The enumerated top-level category paths. -/
def categoryPaths : List String :=
  ["/electric-scooters", "/hoverboards", "/electric-skateboards",
   "/electric-unicycles", "/skating", "/electric-bikes"]

/-- The enumerated legal / info paths. -/
def legalPaths : List String :=
  ["/about", "/contact", "/how-we-test", "/disclaimers",
   "/privacy-policy", "/privacy", "/terms-conditions", "/terms",
   "/editorial-policy", "/editorial", "/cookies",
   "/opt-out-preferences"]

/-- The leading words of the listicle / guide rule. -/
def guideLeads : List String :=
  ["best-", "fastest-", "how-to-", "how-", "what-", "where-", "can-you-",
   "are-"]

/-- The body of `classify_old_url` after `p = path.lower()`; the ordered
if-chain mirrors the source, first match wins. -/
def classifyBody (p : String) : String × String :=
  if strStarts p "/products/" then ("product", "Products")
  else if strStarts p "/tool/" ∨ strStarts p "/tools/" then
    if pyContainsSub p "finder" then ("tool", "Tools — Finders")
    else if pyContainsSub p "comparison" then ("tool", "Tools — Comparison")
    else if pyContainsSub p "deals" then ("tool", "Tools — Deals")
    else if pyContainsSub p "coupons" then ("tool", "Tools — Coupons")
    else if pyContainsSub p "calculator" then ("tool", "Tools — Calculators")
    else ("tool", "Tools — Other")
  else if strStarts p "/go/" then
    ("affiliate-redirect", "Affiliate Redirects (/go/)")
  else if strStarts p "/recommends/" then
    ("affiliate-redirect", "Affiliate Redirects (/recommends/)")
  else if strStarts p "/author/" then
    if pyContainsSub p "/page/" then
      ("author-pagination", "Author Pages — Pagination")
    else ("author", "Author Pages")
  else if p ∈ categoryPaths then ("category", "Category Archives")
  else if strStarts p "/electric-scooters/reviews"
       ∨ strStarts p "/electric-scooters/articles"
       ∨ strStarts p "/electric-scooters/buying-guides" then
    ("archive", "Sub-category Archives")
  else if pyContainsSub p "/page/" then ("pagination", "Pagination")
  else if strStarts p "/compare/" then ("compare", "Compare Pages")
  else if strStarts p "/deals/" then ("deals", "Deals Pages")
  else if p ∈ legalPaths then ("page", "Info / Legal Pages")
  else if strStarts p "/login" ∨ strStarts p "/log-in" then
    ("page", "Login / Auth Pages")
  else if strStarts p "/blog/" then
    ("post", "Posts (blog/ prefix — old URL)")
  else if strStarts p "/review/" then
    ("post", "Posts (review/ prefix — old URL)")
  else if strEnds p "/feed" ∨ strEnds p "/feed/" ∨ pyContainsSub p "feed/" then
    ("feed", "RSS Feeds")
  else if p = "/" ∨ p = "" then ("page", "Homepage")
  else if strEnds p "-review" ∨ strEnds p "-review/" then ("post", "Reviews")
  else if guideLeads.any (fun pre => strStarts p ("/" ++ pre)) then
    ("post", "Guides / Listicles")
  else
    let parts := pySplitChar (pyStripSlashL p.data) '/'
    if parts.length = 1 ∧ parts.headD [] ≠ [] then ("post", "Posts — Other")
    else ("unknown", "Uncategorised")

/-- `classify_old_url(path)`: lower-case, then apply the ordered rules. -/
def classify_old_url (path : String) : String × String :=
  classifyBody (pyLower path)

/-! ### `find_old_equivalent` -/

structure OldRec where
  path : String
  raw_url : String
  sources : List String
  page_type : String
  group : String
  gsc_status : String
  gsc_last_crawled : String
  has_rankmath_redirect : String
  rankmath_dest : String
  rankmath_type : String
  is_thirstyaffiliate : String
  ta_name : String
  ta_dest_url : String
  exists_on_new_site : String
  new_site_path : String
  notes : String
deriving Repr, DecidableEq

/-- Association-list lookup modelling Python `dict` indexing /
membership (`alook m k` is `some` iff `k in m`). -/
def alook {β : Type} : List (String × β) → String → Option β
  | [], _ => none
  | e :: t, k => if e.1 = k then some e.2 else alook t k

/-- `old_p in old_sitemap_urls or old_p in all_old`. -/
def inEitherMap (osm : List (String × String)) (ao : List (String × OldRec))
    (k : String) : Bool :=
  (alook osm k).isSome || (alook ao k).isSome

/-- The rename table for `/tools/` slugs; `some none` is an explicit
"no old equivalent" entry. -/
def toolRenames : List (String × Option String) :=
  [("battery-charging-time-calculator", some "battery-charge-time-calculator"),
   ("electric-scooter-range-calculator", some "electric-scooter-range-calculator"),
   ("electric-scooter-laws-by-state", none),
   ("electric-bike-laws-by-state", none)]

/-- `/tools/X → /tool/X` plus the rename table. -/
def patTools (p : String) (osm : List (String × String))
    (ao : List (String × OldRec)) : List String :=
  if strStarts p "/tools/" then
    let old_p := "/tool/" ++ String.mk (p.data.drop 7)
    let first := if inEitherMap osm ao old_p then [old_p] else []
    let slug := String.mk (p.data.drop 7)
    let second :=
      match alook toolRenames slug with
      | some (some r) =>
        let old_p2 := "/tool/" ++ r
        if inEitherMap osm ao old_p2 then [old_p2] else []
      | _ => []
    first ++ second
  else []

/-- One fixed path-to-path pattern: when `p` equals `src`, offer `dst`
if it exists in either old-site map. -/
def patExact (p src dst : String) (osm : List (String × String))
    (ao : List (String × OldRec)) : List String :=
  if p = src then (if inEitherMap osm ao dst then [dst] else []) else []

/-- `/deals/<cat>` (or `/coupons/`, `/compare/`): singularise the
category slug and offer `/tool/<singular><tail>`. -/
def patCategoryTool (p lead tail : String) (osm : List (String × String))
    (ao : List (String × OldRec)) : List String :=
  if strStarts p lead then
    let category_slug := rstripSlashL (splitSubSecond p.data lead.data)
    let singular :=
      if strEnds (String.mk category_slug) "s" then rstripSL category_slug
      else category_slug
    let old_p := "/tool/" ++ String.mk singular ++ tail
    if inEitherMap osm ao old_p then [old_p] else []
  else []

/-- `/X-finder → /tool/X-finder` for non-`/tool` paths. -/
def patFinder (p : String) (osm : List (String × String))
    (ao : List (String × OldRec)) : List String :=
  if strEnds p "-finder" ∧ ¬ strStarts p "/tool" then
    let slug := String.mk (pyStripSlashL p.data)
    let old_p := "/tool/" ++ slug
    if inEitherMap osm ao old_p then [old_p] else []
  else []

/-- `find_old_equivalent(new_path, old_sitemap_urls, all_old)`: the
ordered, non-exclusive pattern library; candidates are concatenated in
source order. -/
def find_old_equivalent (new_path : String) (osm : List (String × String))
    (ao : List (String × OldRec)) : List String :=
  let p := pyLower new_path
  patTools p osm ao
    ++ patExact p "/reviews" "/electric-scooters/reviews" osm ao
    ++ patExact p "/articles" "/electric-scooters/articles" osm ao
    ++ patExact p "/buying-guides" "/electric-scooters/buying-guides" osm ao
    ++ patExact p "/editorial" "/editorial-policy" osm ao
    ++ patExact p "/terms" "/terms-conditions" osm ao
    ++ patExact p "/privacy" "/privacy-policy" osm ao
    ++ patCategoryTool p "/deals/" "-deals" osm ao
    ++ patFinder p osm ao
    ++ patExact p "/tools/electric-scooter-range-calculator"
        "/electric-scooter-range-calculator" osm ao
    ++ patCategoryTool p "/coupons/" "-coupons" osm ao
    ++ patCategoryTool p "/compare/" "-comparison" osm ao

/-! ### Dictionaries and records of the merge phase

Python `dict`s are modelled as insertion-ordered association lists:
assignment updates the value in place for an existing key and appends
otherwise; iteration follows list order. -/

/-- `m[k] = v` on a Python dict. -/
def dictInsert {β : Type} (m : List (String × β)) (k : String) (v : β) :
    List (String × β) :=
  match alook m k with
  | some _ => m.map (fun e => if e.1 = k then (e.1, v) else e)
  | none => m ++ [(k, v)]

/-- In-place mutation of the record stored at key `k`. -/
def updAt {β : Type} (m : List (String × β)) (k : String) (f : β → β) :
    List (String × β) :=
  m.map (fun e => if e.1 = k then (e.1, f e.2) else e)

/-- The blank record built by `ensure_record` for a fresh path. -/
def initRec (path raw_url : String) : OldRec :=
  ⟨path, raw_url, [], "", "", "", "", "", "", "", "", "", "", "", "", ""⟩

/-- `ensure_record(path, raw_url)` on the old-site map. -/
def ensure_record (m : List (String × OldRec)) (path raw_url : String) :
    List (String × OldRec) :=
  match alook m path with
  | some _ => m
  | none => m ++ [(path, initRec path raw_url)]

/-- `rec["sources"].add(t)` (a Python `set`, modelled insertion-ordered). -/
def addTag (r : OldRec) (t : String) : OldRec :=
  if t ∈ r.sources then r else { r with sources := r.sources ++ [t] }

abbrev OldMap := List (String × OldRec)

structure GscEntry where
  status : String
  last_crawled : String
  raw_url : String
deriving Repr, DecidableEq

structure RmRule where
  source_raw : String
  destination : String
  rtype : String
  rstatus : String
deriving Repr, DecidableEq

structure TaRec where
  name : String
  destination_url : String
  category : String
  has_geo_links : String
deriving Repr, DecidableEq

structure NewRec where
  url : String
  sitemap_source : String
deriving Repr, DecidableEq

/-! ### Step 1: old-site sitemap paths (`old_sitemap_urls`) -/

/-- Ingest the `<loc>` URLs of one old sitemap file: `p → u` with plain
dict assignment. -/
def oldSitemapIngest (m : List (String × String)) :
    List String → Option (List (String × String))
  | [] => some m
  | u :: rest =>
    match normalise_path u with
    | none => none
    | some p => oldSitemapIngest (dictInsert m p u) rest

/-- `old_sitemap_urls` from the old sitemap files' URL lists, in file
order. -/
def oldSitemapFold (m : List (String × String)) :
    List (List String) → Option (List (String × String))
  | [] => some m
  | urls :: rest =>
    match oldSitemapIngest m urls with
    | none => none
    | some m' => oldSitemapFold m' rest

def buildOldSitemapUrls (files : List (List String)) :
    Option (List (String × String)) :=
  oldSitemapFold [] files

/-! ### Step 2: GSC status table (`gsc_statuses`) -/

abbrev GscTable := List (String × GscEntry)

/-- Ingest one status folder's rows; the first entry stored for a
normalised URL wins (`if not existing`). -/
def gscIngestRows (t : GscTable) (label : String) :
    List (String × String) → Option GscTable
  | [] => some t
  | (url, crawled) :: rest =>
    match normalise_url url with
    | none => none
    | some norm =>
      gscIngestRows
        (match alook t norm with
         | some _ => t
         | none => t ++ [(norm, ⟨label, crawled, url⟩)])
        label rest

/-- Ingest the status folders in the given order; each element is
`(status label, rows of that folder's Table.csv)`. -/
def gscIngestFolders (t : GscTable) :
    List (String × List (String × String)) → Option GscTable
  | [] => some t
  | (label, rows) :: rest =>
    match gscIngestRows t label rows with
    | none => none
    | some t' => gscIngestFolders t' rest

/-- `gsc_statuses` built from the ordered folder list.  In the source
the order is fixed by the `gsc_folders` dict (see `gsc_folders`). -/
def buildGscStatuses (folders : List (String × List (String × String))) :
    Option GscTable :=
  gscIngestFolders [] folders

/-- The fixed folder-name → status-label table, in source order. -/
def gsc_folders : List (String × String) :=
  [("Indexed pages", "indexed"),
   ("Page with redirect", "redirect"),
   ("Not found (404)", "404"),
   ("Excluded by noindex tag", "noindex"),
   ("Crawled - currently not indexed", "crawled-not-indexed"),
   ("Discovered – currently not indexed", "discovered-not-indexed"),
   ("Blocked by robots.txt", "blocked-robots"),
   ("Alternative page with proper canonical tag", "canonical-alt")]

/-! ### Step 3: RankMath redirect rules -/

/-- One raw CSV row of a RankMath redirections export. -/
structure RmRow where
  source : String
  destination : String
  rtype : String
  rstatus : String
deriving Repr, DecidableEq

/-- Ingest RankMath rows: keys are `"/" + source.strip("/")`, lower-cased;
a later rule for the same path replaces the earlier one. -/
def rmIngestRows (m : List (String × RmRule)) :
    List RmRow → List (String × RmRule)
  | [] => m
  | row :: rest =>
    let source := pyStripWs row.source
    let dest := pyStripWs row.destination
    let rtype := pyStripWs row.rtype
    let rstatus := pyStripWs row.rstatus
    if source = "" then rmIngestRows m rest
    else
      let src_path := "/" ++ String.mk (pyStripSlashL source.data)
      rmIngestRows (dictInsert m (pyLower src_path) ⟨source, dest, rtype, rstatus⟩)
        rest

/-- `rankmath_redirects` from the concatenated rows of all redirect
export files, in file order. -/
def buildRankmath (rows : List RmRow) : List (String × RmRule) :=
  rmIngestRows [] rows

/-! ### Step 4: ThirstyAffiliates links -/

/-- One raw CSV row of a ThirstyAffiliates export. -/
structure TaRow where
  slug : String
  name : String
  dest : String
  cat : String
  geo : String
deriving Repr, DecidableEq

/-- Ingest ThirstyAffiliates rows keyed by slug. -/
def taIngestRows (m : List (String × TaRec)) : List TaRow → List (String × TaRec)
  | [] => m
  | row :: rest =>
    let slug := pyStripWs row.slug
    if slug = "" then taIngestRows m rest
    else
      taIngestRows
        (dictInsert m slug
          ⟨pyStripWs row.name, pyStripWs row.dest, pyStripWs row.cat,
            if pyStripWs row.geo ≠ "" then "yes" else "no"⟩)
        rest

def buildTa (rows : List TaRow) : List (String × TaRec) :=
  taIngestRows [] rows

/-! ### Step 5: new-site map (`new_urls`) -/

abbrev NewMap := List (String × NewRec)

/-- Ingest one new-site sitemap file: normalise each `<loc>`, discard
`.xml` / `.kml` paths, and assign (overwriting) the owning filename. -/
def newIngestFile (m : NewMap) (fname : String) :
    List String → Option NewMap
  | [] => some m
  | u :: rest =>
    match normalise_path u with
    | none => none
    | some p =>
      newIngestFile
        (if strEnds p ".xml" || strEnds p ".kml" then m
         else dictInsert m p ⟨u, fname⟩)
        fname rest

/-- Fold `newIngestFile` over the new sitemap files in order. -/
def newFilesFold (m : NewMap) : List (String × List String) → Option NewMap
  | [] => some m
  | (fname, urls) :: rest =>
    match newIngestFile m fname urls with
    | none => none
    | some m' => newFilesFold m' rest

/-- `new_urls` from the (already name-sorted) new sitemap files, each a
`(filename, loc URLs)` pair. -/
def buildNewUrls (files : List (String × List String)) : Option NewMap :=
  newFilesFold [] files

/-! ### Step 6: building the old-site inventory -/

/-- The record mutation of merge loop 1. -/
def smApply (r : OldRec) : OldRec := addTag r "sitemap"

/-- Merge loop 1: old sitemap paths. -/
def phaseSitemap (m : OldMap) : List (String × String) → OldMap
  | [] => m
  | (path, url) :: rest =>
    phaseSitemap (updAt (ensure_record m path url) path smApply) rest

/-- The fixed set of tracking parameters considered junk on homepage
URLs. -/
def junk_params : List String :=
  ["utm_source", "utm_medium", "utm_campaign", "affiliate", "gspk",
   "gsxid", "trk", "ref", "fbclid", "stream"]

/-- The homepage query-string junk test: search/pagination keys, or a
nonempty key set contained in the junk-parameter set. -/
def gscHomeQueryJunk (q : String) : Bool :=
  let keys := qsKeys q
  if keys.contains "s" || keys.contains "page_posts" then true
  else
    decide (keys ≠ []) &&
      keys.all (fun k =>
        k ∈ junk_params ++ ["utm_source", "utm_medium", "utm_campaign"])

/-- The record mutation of merge loop 2: provenance tag plus the
status-precedence rule (`indexed` wins; otherwise first non-empty
status sticks). -/
def gscApply (e : GscEntry) (r : OldRec) : OldRec :=
  let r := addTag r ("gsc:" ++ e.status)
  if e.status = "indexed" ∨ r.gsc_status = "" then
    { r with gsc_status := e.status, gsc_last_crawled := e.last_crawled }
  else r

/-- Merge loop 2, body for one `gsc_statuses` entry: hostname allow-list,
junk filters, then record creation/enrichment with the status-precedence
rule (`indexed` wins, otherwise first non-empty status sticks). -/
def gscMergeEntry (m : OldMap) (e : GscEntry) : Option OldMap :=
  match urlparseE e.raw_url with
  | none => none
  | some parsed =>
    if ¬ (pyLower (hostnameOrEmpty parsed.netloc) = "eridehero.com"
        ∨ pyLower (hostnameOrEmpty parsed.netloc) = "www.eridehero.com") then some m
    else
      match normalise_path e.raw_url with
      | none => none
      | some path =>
        if pyContainsSub path "ck/a?" ∨ pyContainsSub e.raw_url "cx_tag_filter" then
          some m
        else if pyContainsSub e.raw_url "unapproved="
             ∨ pyContainsSub e.raw_url "moderation-hash=" then
          some m
        else if parsed.path = "/" ∧ parsed.query ≠ ""
             ∧ gscHomeQueryJunk parsed.query then
          some m
        else
          some (updAt (ensure_record m path e.raw_url) path (gscApply e))

/-- Merge loop 2: the `gsc_statuses` entries in table order. -/
def phaseGsc (m : OldMap) : GscTable → Option OldMap
  | [] => some m
  | (_, e) :: rest =>
    match gscMergeEntry m e with
    | none => none
    | some m' => phaseGsc m' rest

/-- The record mutation of merge loop 3. -/
def rmApply (rd : RmRule) (r : OldRec) : OldRec :=
  { addTag r "rankmath-redirect-source" with
      has_rankmath_redirect := "yes",
      rankmath_dest := rd.destination,
      rankmath_type := rd.rtype }

/-- Merge loop 3: RankMath redirect sources. -/
def phaseRankmath (m : OldMap) : List (String × RmRule) → OldMap
  | [] => m
  | (src_path, rd) :: rest =>
    phaseRankmath (updAt (ensure_record m src_path "") src_path (rmApply rd)) rest

/-- The record mutation of merge loop 4. -/
def taApply (td : TaRec) (r : OldRec) : OldRec :=
  { addTag r "thirstyaffiliates" with
      is_thirstyaffiliate := "yes",
      ta_name := td.name,
      ta_dest_url := td.destination_url }

/-- Merge loop 4: ThirstyAffiliates links at `/recommends/{slug}`. -/
def phaseTa (m : OldMap) : List (String × TaRec) → OldMap
  | [] => m
  | (slug, td) :: rest =>
    phaseTa
      (updAt (ensure_record m ("/recommends/" ++ slug) "")
        ("/recommends/" ++ slug) (taApply td))
      rest

/-- The browser-name suffixes checked for bot/junk product URLs. -/
def browserSuffixes : List String :=
  ["firefox", "chrome", "edge", "crios", "webkit", "opr", "version"]

/-- The notes list assembled for one record (in source order). -/
def recNotes (newUrls : NewMap) (path : String) (parsed : ParseResult) :
    List String :=
  (if strEnds path "/1000" then
      ["Has /1000 suffix (Oxygen Builder artifact)"]
        ++ (let base := String.mk (beforeLastSub path.data "/1000".data)
            if (alook newUrls base).isSome then
              ["Base path " ++ base ++ " exists on new site"]
            else [])
    else [])
  ++ (if pyContainsSub path "//" ∧ ¬ strStarts path "//" then
        ["Contains double-slash (malformed URL)"]
      else [])
  ++ (if parsed.query ≠ "" then
        let qs_keys := qsKeys parsed.query
        if qs_keys.contains "ids" then ["Comparison tool URL with product IDs"]
        else if qs_keys.contains "tag" then ["Has affiliate ?tag= parameter"]
        else if qs_keys.contains "ref" then ["Has ?ref= tracking parameter"]
        else if qs_keys ≠ [] then ["Has query params: " ++ joinSep ", " qs_keys]
        else []
      else [])
  ++ (if strEnds path "/opt" then
        ["Product URL with /OPT/ suffix (likely Oxygen)"]
      else [])
  ++ (match browserSuffixes.find? (fun b => strEnds path ("/" ++ b)) with
      | some b => ["Product URL with /" ++ b ++ "/ suffix (bot/junk)"]
      | none => [])

/-- Enrichment stage 1: classification. -/
def enrichClassify (path : String) (r : OldRec) : OldRec :=
  { r with page_type := (classify_old_url path).1,
           group := (classify_old_url path).2 }

/-- Enrichment stage 2: late redirect attach (only when not already
set via the redirect merge loop). -/
def enrichRedirect (rankmath : List (String × RmRule)) (path : String)
    (r : OldRec) : OldRec :=
  if r.has_rankmath_redirect ≠ "yes" then
    match alook rankmath path with
    | some rd =>
      { r with has_rankmath_redirect := "yes",
               rankmath_dest := rd.destination,
               rankmath_type := rd.rtype }
    | none => r
  else r

/-- Enrichment stage 3: presence on the new site. -/
def enrichNewSite (newUrls : NewMap) (path : String) (r : OldRec) : OldRec :=
  if (alook newUrls path).isSome then
    { r with exists_on_new_site := "yes", new_site_path := path }
  else { r with exists_on_new_site := "no" }

/-- The classify-and-enrich pass over one record (classification,
late redirect attach, new-site presence, notes), staged as in the
source.  The conversion of the `sources` set into a comma-joined string
for CSV output is report formatting and is not modelled; `sources`
stays a list. -/
def enrichRec (rankmath : List (String × RmRule)) (newUrls : NewMap)
    (path : String) (r : OldRec) : Option OldRec :=
  let r := enrichClassify path r
  let r := enrichRedirect rankmath path r
  let r := enrichNewSite newUrls path r
  match urlparseE r.raw_url with
  | none => none
  | some parsed =>
    some { r with notes := joinSep "; " (recNotes newUrls path parsed) }

/-- The enrichment pass over the whole map, in insertion order. -/
def phaseEnrich (rankmath : List (String × RmRule)) (newUrls : NewMap) :
    OldMap → Option OldMap
  | [] => some []
  | (p, r) :: rest =>
    match enrichRec rankmath newUrls p r with
    | none => none
    | some r' =>
      match phaseEnrich rankmath newUrls rest with
      | none => none
      | some rest' => some ((p, r') :: rest')

/-- The whole old-site map build (steps 2 and 6 of `main`): the GSC
status table is built from the ordered status folders, then the four
merge loops run in source order, then the enrichment pass.  `none`
models a `ValueError` escaping `main`. -/
def buildOldMap (oldSitemap : List (String × String))
    (gscFolderRows : List (String × List (String × String)))
    (rankmath : List (String × RmRule)) (ta : List (String × TaRec))
    (newUrls : NewMap) : Option OldMap :=
  match buildGscStatuses gscFolderRows with
  | none => none
  | some statuses =>
    let m := phaseSitemap [] oldSitemap
    match phaseGsc m statuses with
    | none => none
    | some m =>
      let m := phaseRankmath m rankmath
      let m := phaseTa m ta
      phaseEnrich rankmath newUrls m

/-! ### Auxiliary definitions used to state the claims -/

/-- Modelled from the spec's words for C2: "parse the URL, take its path
component, lowercase it, strip exactly one trailing slash unless the
result would be empty (then it is `/`)".  To be compared with
`normalise_path`. -/
def canonicalPathSpecOne (url : String) : Option String :=
  match urlparseE url with
  | none => none
  | some parsed =>
    let q := pyLowerL parsed.path.data
    let r := if q.getLast? = some '/' then q.dropLast else q
    some (String.mk (if r = [] then ['/'] else r))

/-- The amended reading of C2: lowercase the path component and strip
ALL trailing slashes, `/` when the result is empty.  To be compared
with `normalise_path`. -/
def canonicalPathSpecAll (url : String) : Option String :=
  match urlparseE url with
  | none => none
  | some parsed =>
    let r := rstripSlashL (pyLowerL parsed.path.data)
    some (String.mk (if r = [] then ['/'] else r))

/-- Characters of a canonical path on which re-parsing is transparent:
printable, not upper-case ASCII, and none of the URL metacharacters
`:`, `#`, `?`, `;`. -/
def goodPathChar (c : Char) : Bool :=
  decide (32 < c.toNat) && !(decide (65 ≤ c.toNat) && decide (c.toNat ≤ 90)) &&
    !(c == ':') && !(c == '#') && !(c == '?') && !(c == ';')

/-- A canonical-form path: starts with a single `/`, has no trailing
slash except the root, and contains only `goodPathChar`s. -/
def isCanonicalForm (p : String) : Bool :=
  match p.data with
  | [] => false
  | c :: rest =>
    (c == '/') && !(leadMatch ['/'] rest) && (rest.getLast? != some '/')
      && rest.all goodPathChar

/-- The netloc as `urlsplit` would extract it, for the error
characterisation of C7. -/
def rawNetlocOf (s : String) : List Char :=
  let l := (s.data.dropWhile isC0OrSpace).filter (fun c => !isTabOrNl c)
  let rest := (schemeSplitL l).2
  if rest.take 2 = ['/', '/'] then
    (rest.drop 2).takeWhile (fun c => !isNetlocDelim c)
  else []

/-- The exact condition under which the modelled `urlsplit` raises:
unbalanced square brackets in the netloc. -/
def bracketBadNetloc (s : String) : Bool := bracketMismatch (rawNetlocOf s)

/-- The region where the embedded `urlsplit` is exact about errors: the
netloc is all-ASCII (so CPython's `_checknetloc` NFKC check returns
without raising) and bracket-free (so neither the "Invalid IPv6 URL"
check nor `_check_bracketed_host` can fire). -/
def plainNetloc (s : String) : Bool :=
  (rawNetlocOf s).all (fun c => !(c == '[') && !(c == ']') && decide (c.toNat < 128))

/-- A crawl-status row that passes the hostname allow-list and every
junk filter of merge loop 2. -/
def gscRowSurvives (raw : String) : Bool :=
  match urlparseE raw with
  | none => false
  | some parsed =>
    decide (pyLower (hostnameOrEmpty parsed.netloc) = "eridehero.com"
        ∨ pyLower (hostnameOrEmpty parsed.netloc) = "www.eridehero.com") &&
      (match normalise_path raw with
       | none => false
       | some path =>
         !(pyContainsSub path "ck/a?" || pyContainsSub raw "cx_tag_filter") &&
         !(pyContainsSub raw "unapproved="
             || pyContainsSub raw "moderation-hash=") &&
         !(decide (parsed.path = "/") && decide (parsed.query ≠ "")
             && gscHomeQueryJunk parsed.query))

/-- The key sequence of an association list. -/
def keysOf {β : Type} (m : List (String × β)) : List String :=
  m.map Prod.fst

/-! ## Theorems

Everything below is proof; no further definitions are introduced. -/

theorem toNat_ofNat_valid (n : Nat) (h : n.isValidChar) :
    (Char.ofNat n).toNat = n := by
  unfold Char.ofNat
  rw [dif_pos h]
  rfl

theorem pyLowerChar_toNat_of_upper (c : Char) (h : 65 ≤ c.toNat ∧ c.toNat ≤ 90) :
    (pyLowerChar c).toNat = c.toNat + 32 := by
  unfold pyLowerChar
  rw [if_pos h]
  exact toNat_ofNat_valid _ (Or.inl (by omega))

theorem pyLowerChar_fix (c : Char) (h : ¬ (65 ≤ c.toNat ∧ c.toNat ≤ 90)) :
    pyLowerChar c = c := by
  unfold pyLowerChar
  rw [if_neg h]

theorem pyLowerChar_idem (c : Char) :
    pyLowerChar (pyLowerChar c) = pyLowerChar c := by
  by_cases h : 65 ≤ c.toNat ∧ c.toNat ≤ 90
  · have h2 := pyLowerChar_toNat_of_upper c h
    exact pyLowerChar_fix _ (by omega)
  · rw [pyLowerChar_fix c h, pyLowerChar_fix c h]

theorem pyLowerL_idem (l : List Char) : pyLowerL (pyLowerL l) = pyLowerL l := by
  unfold pyLowerL
  rw [List.map_map]
  exact List.map_congr_left (fun c _ => pyLowerChar_idem c)

theorem pyLower_idem (s : String) : pyLower (pyLower s) = pyLower s := by
  unfold pyLower
  exact congrArg String.mk (pyLowerL_idem s.data)

/-- C9: the old-site classifier is case-insensitive: classifying a path
gives the same result as classifying its lower-cased form, because the
classifier lower-cases its input first and ASCII lower-casing is
idempotent. -/
theorem classify_old_url_lower (p : String) :
    classify_old_url p = classify_old_url (pyLower p) := by
  unfold classify_old_url
  rw [pyLower_idem]

/-- C5: rule order of the old-site classifier: `/tool/electric-scooter-finder`
is classified by the finder rule as `(tool, "Tools — Finders")` and
`/best-electric-scooters` by the guides rule as
`(post, "Guides / Listicles")`, not by the later single-segment post
fallback. -/
theorem classify_old_url_rule_order :
    classify_old_url "/tool/electric-scooter-finder" = ("tool", "Tools — Finders")
    ∧ classify_old_url "/best-electric-scooters" = ("post", "Guides / Listicles") := by
  constructor <;> decide

theorem pyLowerChar_slash_iff (c : Char) : pyLowerChar c = '/' ↔ c = '/' := by
  constructor
  · intro h
    by_cases hu : 65 ≤ c.toNat ∧ c.toNat ≤ 90
    · have h2 := pyLowerChar_toNat_of_upper c hu
      rw [h] at h2
      have h47 : ('/' : Char).toNat = 47 := rfl
      omega
    · rwa [pyLowerChar_fix c hu] at h
  · intro h
    rw [h]
    rfl

theorem beq_slash_comp :
    ((· == '/') ∘ pyLowerChar) = (· == ('/' : Char)) := by
  funext c
  simp only [Function.comp_apply]
  rw [Bool.eq_iff_iff]
  simp [pyLowerChar_slash_iff]

theorem rstripSlash_pyLowerL_comm (l : List Char) :
    rstripSlashL (pyLowerL l) = pyLowerL (rstripSlashL l) := by
  unfold rstripSlashL dropTail pyLowerL
  rw [← List.map_reverse, List.dropWhile_map, beq_slash_comp, ← List.map_reverse]

theorem rstripSlashL_no_trailing (l : List Char) :
    rstripSlashL l = [] ∨ (rstripSlashL l).getLast? ≠ some '/' := by
  unfold rstripSlashL dropTail
  have h := List.head?_dropWhile_not (· == '/') l.reverse
  cases hh : (List.dropWhile (· == '/') l.reverse).head? with
  | none =>
    left
    rw [List.head?_eq_none_iff] at hh
    rw [hh]
    rfl
  | some x =>
    right
    rw [hh] at h
    rw [List.getLast?_reverse, hh]
    intro hc
    rw [Option.some_inj] at hc
    rw [hc] at h
    simp at h

theorem rstripSlashL_eq_self (l : List Char) (h : l.getLast? ≠ some '/') :
    rstripSlashL l = l := by
  unfold rstripSlashL dropTail
  cases hr : l.reverse with
  | nil =>
    have : l = [] := by simpa using congrArg List.reverse hr
    rw [this]
    rfl
  | cons c t =>
    have hc : c ≠ '/' := by
      intro hc
      apply h
      rw [← List.head?_reverse, hr, hc]
      rfl
    rw [List.dropWhile_cons_of_neg (by simp [hc]), ← hr, List.reverse_reverse]

theorem pyLowerL_slash : pyLowerL ['/'] = ['/'] := rfl

theorem normSpec_eq (q : List Char) :
    (if pyLowerL (if rstripSlashL q = [] then ['/'] else rstripSlashL q) ≠ ['/']
     then rstripSlashL (pyLowerL (if rstripSlashL q = [] then ['/'] else rstripSlashL q))
     else pyLowerL (if rstripSlashL q = [] then ['/'] else rstripSlashL q))
    = (if rstripSlashL (pyLowerL q) = [] then ['/'] else rstripSlashL (pyLowerL q)) := by
  have hnil : pyLowerL ([] : List Char) = [] := rfl
  rw [rstripSlash_pyLowerL_comm q]
  by_cases ha : rstripSlashL q = []
  · simp [ha, pyLowerL_slash, hnil]
  · have hnt : (rstripSlashL q).getLast? ≠ some '/' :=
      (rstripSlashL_no_trailing q).resolve_left ha
    have hne : pyLowerL (rstripSlashL q) ≠ [] := by
      simpa [pyLowerL, List.map_eq_nil_iff] using ha
    have hlast : (pyLowerL (rstripSlashL q)).getLast? ≠ some '/' := by
      unfold pyLowerL
      rw [List.getLast?_map]
      cases hg : (rstripSlashL q).getLast? with
      | none => simp
      | some x =>
        have hx : x ≠ '/' := by
          intro hx
          exact hnt (by rw [hg, hx])
        simp [Option.map_some]
        intro hc
        exact hx ((pyLowerChar_slash_iff x).mp hc)
    have hfix : rstripSlashL (pyLowerL (rstripSlashL q)) = pyLowerL (rstripSlashL q) :=
      rstripSlashL_eq_self _ hlast
    rw [if_neg ha]
    by_cases hsl : pyLowerL (rstripSlashL q) = ['/']
    · simp [hsl]
    · simp [hsl, hfix, hne]

/-- C2, amended: `normalise_path` parses the URL, takes its path
component, lowercases it, and strips ALL trailing slashes (not exactly
one), yielding `/` when the result would be empty. -/
theorem c2_normalise_path_strips_all (u : String) :
    normalise_path u = canonicalPathSpecAll u := by
  unfold normalise_path canonicalPathSpecAll
  cases hp : urlparseE u with
  | none => rfl
  | some parsed =>
    exact congrArg (fun l => some (String.mk l)) (normSpec_eq parsed.path.data)

/-- C2, counterexample: on `https://example.com/foo//` the code strips
both trailing slashes and yields `/foo`, while the claim ("strips
exactly one trailing slash"; "a path ending in two or more slashes
keeps all but one of them") demands `/foo/`. -/
theorem c2_counterexample :
    normalise_path "https://example.com/foo//" = some "/foo"
    ∧ canonicalPathSpecOne "https://example.com/foo//" = some "/foo/"
    ∧ ("/foo" : String) ≠ "/foo/" := by
  refine ⟨?_, ?_, ?_⟩ <;> decide

theorem patExact_ne (p src dst : String) (osm : List (String × String))
    (ao : List (String × OldRec)) (h : p ≠ src) : patExact p src dst osm ao = [] := by
  unfold patExact
  rw [if_neg h]

theorem patCategoryTool_nostart (p lead tail : String) (osm : List (String × String))
    (ao : List (String × OldRec)) (h : strStarts p lead = false) :
    patCategoryTool p lead tail osm ao = [] := by
  simp [patCategoryTool, h]

theorem patFinder_noend (p : String) (osm : List (String × String))
    (ao : List (String × OldRec)) (h : strEnds p "-finder" = false) :
    patFinder p osm ao = [] := by
  simp [patFinder, h]

theorem patTools_laws (osm : List (String × String)) (ao : List (String × OldRec))
    (h1 : alook osm "/tool/electric-scooter-laws-by-state" = none)
    (h2 : alook ao "/tool/electric-scooter-laws-by-state" = none) :
    patTools "/tools/electric-scooter-laws-by-state" osm ao = [] := by
  have harg : "/tool/" ++ String.mk (("/tools/electric-scooter-laws-by-state" : String).data.drop 7)
      = "/tool/electric-scooter-laws-by-state" := by decide
  have hrn : alook toolRenames "electric-scooter-laws-by-state" = some none := by decide
  simp [patTools, inEitherMap, harg, h1, h2, hrn]

/-- C3, amended: the rename-table entry mapped to "no old equivalent"
itself never contributes a candidate, so when no old path
`/tool/electric-scooter-laws-by-state` coincidentally exists
`find_old_equivalent` returns no candidate; but the generic
`/tools/X → /tool/X` rule runs first and does offer such a path when it
exists (see the counterexample). -/
theorem c3_laws_no_candidate (osm : List (String × String)) (ao : List (String × OldRec))
    (h1 : alook osm "/tool/electric-scooter-laws-by-state" = none)
    (h2 : alook ao "/tool/electric-scooter-laws-by-state" = none) :
    find_old_equivalent "/tools/electric-scooter-laws-by-state" osm ao = [] := by
  have hlow : pyLower "/tools/electric-scooter-laws-by-state"
      = "/tools/electric-scooter-laws-by-state" := by decide
  unfold find_old_equivalent
  show
    (patTools (pyLower "/tools/electric-scooter-laws-by-state") osm ao
      ++ patExact (pyLower "/tools/electric-scooter-laws-by-state") "/reviews"
          "/electric-scooters/reviews" osm ao
      ++ patExact (pyLower "/tools/electric-scooter-laws-by-state") "/articles"
          "/electric-scooters/articles" osm ao
      ++ patExact (pyLower "/tools/electric-scooter-laws-by-state") "/buying-guides"
          "/electric-scooters/buying-guides" osm ao
      ++ patExact (pyLower "/tools/electric-scooter-laws-by-state") "/editorial"
          "/editorial-policy" osm ao
      ++ patExact (pyLower "/tools/electric-scooter-laws-by-state") "/terms"
          "/terms-conditions" osm ao
      ++ patExact (pyLower "/tools/electric-scooter-laws-by-state") "/privacy"
          "/privacy-policy" osm ao
      ++ patCategoryTool (pyLower "/tools/electric-scooter-laws-by-state") "/deals/"
          "-deals" osm ao
      ++ patFinder (pyLower "/tools/electric-scooter-laws-by-state") osm ao
      ++ patExact (pyLower "/tools/electric-scooter-laws-by-state")
          "/tools/electric-scooter-range-calculator"
          "/electric-scooter-range-calculator" osm ao
      ++ patCategoryTool (pyLower "/tools/electric-scooter-laws-by-state") "/coupons/"
          "-coupons" osm ao
      ++ patCategoryTool (pyLower "/tools/electric-scooter-laws-by-state") "/compare/"
          "-comparison" osm ao) = []
  rw [hlow, patTools_laws osm ao h1 h2,
    patExact_ne _ _ _ _ _ (by decide), patExact_ne _ _ _ _ _ (by decide),
    patExact_ne _ _ _ _ _ (by decide), patExact_ne _ _ _ _ _ (by decide),
    patExact_ne _ _ _ _ _ (by decide), patExact_ne _ _ _ _ _ (by decide),
    patExact_ne _ _ _ _ _ (by decide),
    patCategoryTool_nostart _ _ _ _ _ (by decide),
    patCategoryTool_nostart _ _ _ _ _ (by decide),
    patCategoryTool_nostart _ _ _ _ _ (by decide),
    patFinder_noend _ _ _ (by decide)]
  rfl

/-- C3, witness: with an old-site map that does not contain the
coincidental path, the matcher returns no candidate. -/
theorem c3_laws_no_candidate_witness :
    find_old_equivalent "/tools/electric-scooter-laws-by-state"
      [("/tool/battery-charge-time-calculator", "u")] [] = [] :=
  c3_laws_no_candidate _ _ (by decide) (by decide)

/-- C3, counterexample: when an old path
`/tool/electric-scooter-laws-by-state` coincidentally exists, the
generic plural-to-singular rule does produce it as a candidate — the
"no old equivalent" rename entry does not block it, contradicting the
claim that no candidate is ever returned. -/
theorem c3_counterexample :
    find_old_equivalent "/tools/electric-scooter-laws-by-state"
      [("/tool/electric-scooter-laws-by-state",
        "https://eridehero.com/tool/electric-scooter-laws-by-state/")] []
      = ["/tool/electric-scooter-laws-by-state"]
    ∧ (["/tool/electric-scooter-laws-by-state"] : List String) ≠ [] := by
  refine ⟨?_, ?_⟩ <;> decide

theorem urlsplitE_none_iff (s : String) :
    urlsplitE s = none ↔ bracketBadNetloc s = true := by
  unfold urlsplitE urlsplitCore bracketBadNetloc rawNetlocOf
  rcases hsp : schemeSplitL ((s.data.dropWhile isC0OrSpace).filter (fun c => !isTabOrNl c))
    with ⟨sc, rest⟩
  simp only [hsp]
  by_cases ht : rest.take 2 = ['/', '/']
  · rw [if_pos ht, if_pos ht]
    by_cases hb : bracketMismatch ((rest.drop 2).takeWhile (fun c => !isNetlocDelim c)) = true
    · simp [hb]
    · simp [hb]
  · rw [if_neg ht, if_neg ht]
    simp [bracketMismatch]

/-- C7, amended: neither normaliser is total.  On a URL whose authority
(netloc) has unbalanced square brackets, `urlparse` raises `ValueError`
("Invalid IPv6 URL"), modelled as `none`, and the error propagates out
of both normalisers.  CPython 3.11 has two further raising paths that
this embedding does not model: `_check_bracketed_host` (a
balanced-bracket authority whose bracketed host is not a valid
IPv6/IPvFuture address) and the `_checknetloc` NFKC check (a non-ASCII
authority whose normalisation comes to contain one of `/?#@:`, e.g.
`http://a℀b`).  The totality half is therefore proved exactly on the
region where the model agrees with CPython and those paths cannot
fire: every string whose authority is all-ASCII and bracket-free makes
both normalisers return normally. -/
theorem c7_restricted_totality (s : String) :
    (bracketBadNetloc s = true → normalise_path s = none ∧ normalise_url s = none)
    ∧ (plainNetloc s = true →
        (normalise_path s).isSome = true ∧ (normalise_url s).isSome = true) := by
  have h := urlsplitE_none_iff s
  constructor
  · intro hb
    have hse : urlsplitE s = none := h.mpr hb
    have hup : urlparseE s = none := by
      unfold urlparseE
      rw [hse]
    constructor
    · unfold normalise_path
      rw [hup]
    · unfold normalise_url
      rw [hup]
  · intro hp
    unfold plainNetloc at hp
    have h1 : '[' ∉ rawNetlocOf s := by
      intro hm
      have hx := List.all_eq_true.mp hp '[' hm
      exact absurd hx (by decide)
    have h2 : ']' ∉ rawNetlocOf s := by
      intro hm
      have hx := List.all_eq_true.mp hp ']' hm
      exact absurd hx (by decide)
    have hc1 : (rawNetlocOf s).contains '[' = false := by
      simp [List.contains, List.elem_eq_mem, h1]
    have hc2 : (rawNetlocOf s).contains ']' = false := by
      simp [List.contains, List.elem_eq_mem, h2]
    have hb : bracketBadNetloc s = false := by
      unfold bracketBadNetloc bracketMismatch
      rw [hc1, hc2]
      rfl
    have hse : urlsplitE s ≠ none := fun hn => by simp [h.mp hn] at hb
    rcases ho : urlsplitE s with _ | r
    · exact absurd ho hse
    · have hup : ∃ pr, urlparseE s = some pr := by
        unfold urlparseE
        simp only [ho]
        by_cases hc : r.scheme ∈ uses_params ∧ r.path.data.contains ';' = true
        · rw [if_pos hc]
          rcases hsp2 : splitParamsL r.path.data with ⟨p, par⟩
          simp only [hsp2]
          exact ⟨_, rfl⟩
        · rw [if_neg hc]
          exact ⟨_, rfl⟩
      rcases hup with ⟨pr, hpr⟩
      constructor
      · unfold normalise_path
        rw [hpr]
        rfl
      · unfold normalise_url
        rw [hpr]
        rfl

/-- C7, witness: both halves at concrete inputs — `http://[a/b` makes
both normalisers raise, and `https://eridehero.com/x`, whose authority
is all-ASCII and bracket-free, makes both return normally. -/
theorem c7_restricted_totality_witness :
    (normalise_path "http://[a/b" = none ∧ normalise_url "http://[a/b" = none)
    ∧ ((normalise_path "https://eridehero.com/x").isSome = true
        ∧ (normalise_url "https://eridehero.com/x").isSome = true) :=
  ⟨(c7_restricted_totality "http://[a/b").1 (by decide),
   (c7_restricted_totality "https://eridehero.com/x").2 (by decide)⟩

/-- C7, counterexample: the URL `http://[a/b` (a `[` in the authority
with no `]`) makes both normalisers raise `ValueError` ("Invalid IPv6
URL"), contradicting "no input string causes either function to raise"
and "an unparseable URL string yields an empty path treated as `/`". -/
theorem c7_counterexample :
    normalise_path "http://[a/b" = none ∧ normalise_url "http://[a/b" = none := by
  refine ⟨?_, ?_⟩ <;> decide

theorem idxOfChar_eq_none (l : List Char) (ch : Char) (h : ∀ x ∈ l, x ≠ ch) :
    idxOfChar l ch = none := by
  induction l with
  | nil => rfl
  | cons c t ih =>
    unfold idxOfChar
    rw [if_neg (h c (List.mem_cons_self c t)),
      ih (fun x hx => h x (List.mem_cons_of_mem c hx))]
    rfl

theorem contains_eq_false_of (l : List Char) (ch : Char) (h : ∀ x ∈ l, x ≠ ch) :
    l.contains ch = false := by
  have hm : ch ∉ l := fun hmem => h ch hmem rfl
  simp [List.contains, List.elem_eq_mem, hm]

theorem goodPathChar_facts (c : Char) (h : goodPathChar c = true) :
    32 < c.toNat ∧ ¬ (65 ≤ c.toNat ∧ c.toNat ≤ 90)
    ∧ c ≠ ':' ∧ c ≠ '#' ∧ c ≠ '?' ∧ c ≠ ';' := by
  unfold goodPathChar at h
  simp only [Bool.and_eq_true, Bool.not_eq_true', beq_eq_false_iff_ne,
    decide_eq_true_eq, Bool.and_eq_false_iff, decide_eq_false_iff_not] at h
  obtain ⟨⟨⟨⟨⟨h1, h2⟩, h3⟩, h4⟩, h5⟩, h6⟩ := h
  refine ⟨h1, ?_, h3, h4, h5, h6⟩
  rcases h2 with h2 | h2 <;> omega

theorem isTabOrNl_eq_false_of_gt32 (c : Char) (h : 32 < c.toNat) :
    isTabOrNl c = false := by
  unfold isTabOrNl
  simp only [Bool.or_eq_false_iff, decide_eq_false_iff_not]
  refine ⟨⟨?_, ?_⟩, ?_⟩ <;> (intro he; rw [he] at h; exact absurd h (by decide))

/-- Re-parsing a canonical-form path is the identity for
`normalise_path`. -/
theorem normalise_path_canonical (p : String) (h : isCanonicalForm p = true) :
    normalise_path p = some p := by
  unfold isCanonicalForm at h
  rcases hd : p.data with _ | ⟨c, rest⟩
  · rw [hd] at h
    exact absurd h (by decide)
  · rw [hd] at h
    simp only [Bool.and_eq_true, beq_iff_eq, Bool.not_eq_true', bne_iff_ne,
      ne_eq] at h
    obtain ⟨⟨⟨hc, hsl⟩, hlast⟩, hall⟩ := h
    subst hc
    have hgood : ∀ x ∈ p.data, goodPathChar x = true := by
      rw [hd]
      intro x hx
      rcases List.mem_cons.mp hx with hx | hx
      · rw [hx]; decide
      · exact List.all_eq_true.mp hall x hx
    have hta : ∀ x ∈ p.data, isTabOrNl x = false := fun x hx =>
      isTabOrNl_eq_false_of_gt32 x (goodPathChar_facts x (hgood x hx)).1
    have hcolon : ∀ x ∈ p.data, x ≠ ':' := fun x hx =>
      (goodPathChar_facts x (hgood x hx)).2.2.1
    have hhash : ∀ x ∈ p.data, x ≠ '#' := fun x hx =>
      (goodPathChar_facts x (hgood x hx)).2.2.2.1
    have hquest : ∀ x ∈ p.data, x ≠ '?' := fun x hx =>
      (goodPathChar_facts x (hgood x hx)).2.2.2.2.1
    have hsemi : ∀ x ∈ p.data, x ≠ ';' := fun x hx =>
      (goodPathChar_facts x (hgood x hx)).2.2.2.2.2
    have hnotup : ∀ x ∈ p.data, ¬ (65 ≤ x.toNat ∧ x.toNat ≤ 90) := fun x hx =>
      (goodPathChar_facts x (hgood x hx)).2.1
    have hdw : p.data.dropWhile isC0OrSpace = p.data := by
      rw [hd]
      exact List.dropWhile_cons_of_neg (by decide)
    have hfl : p.data.filter (fun c => !isTabOrNl c) = p.data :=
      List.filter_eq_self.mpr (fun a ha => by rw [hta a ha]; rfl)
    have hsch : schemeSplitL p.data = ([], p.data) := by
      unfold schemeSplitL
      rw [idxOfChar_eq_none p.data ':' hcolon]
    have htk : ¬ (p.data.take 2 = ['/', '/']) := by
      rw [hd]
      cases rest with
      | nil => decide
      | cons r t =>
        have hr : r ≠ '/' := by
          intro hr
          rw [hr] at hsl
          have ht : leadMatch ['/'] ('/' :: t) = true := rfl
          rw [ht] at hsl
          exact Bool.noConfusion hsl
        intro hcontra
        simp only [List.take, List.cons.injEq] at hcontra
        exact hr hcontra.2.1
    have hch : p.data.contains '#' = false := contains_eq_false_of _ _ hhash
    have hcq : p.data.contains '?' = false := contains_eq_false_of _ _ hquest
    have hcs : p.data.contains ';' = false := contains_eq_false_of _ _ hsemi
    have hsplit : urlsplitE p = some ⟨"", "", p, "", ""⟩ := by
      unfold urlsplitE urlsplitCore
      simp only [hdw, hfl, hsch]
      rw [if_neg htk]
      unfold mkSplit
      simp only [hch, hcq, Bool.false_eq_true, if_false]
    have hparse : urlparseE p = some ⟨"", "", p, "", "", ""⟩ := by
      unfold urlparseE
      simp only [hsplit]
      have hcond : ¬ (("" : String) ∈ uses_params ∧
          (String.data p).contains ';' = true) := by
        intro hx
        rw [hcs] at hx
        exact absurd hx.2 (by decide)
      rw [if_neg hcond]
    unfold normalise_path
    rw [hparse]
    show some (String.mk (
      let path := let r := rstripSlashL p.data; if r = [] then ['/'] else r
      let path := pyLowerL path
      if path ≠ ['/'] then rstripSlashL path else path)) = some p
    cases rest with
    | nil =>
      rw [hd]
      show some (String.mk (
        let path := let r := rstripSlashL ['/']; if r = [] then ['/'] else r
        let path := pyLowerL path
        if path ≠ ['/'] then rstripSlashL path else path)) = some p
      have : p = String.mk ['/'] := by
        have := congrArg String.mk hd
        simpa using this
      rw [this]
      decide
    | cons r t =>
      have hlast2 : p.data.getLast? ≠ some '/' := by
        rw [hd, List.getLast?_cons_cons]
        exact hlast
      have hstr : rstripSlashL p.data = p.data := rstripSlashL_eq_self _ hlast2
      have hlow : pyLowerL p.data = p.data := by
        unfold pyLowerL
        have hfx : ∀ x ∈ p.data, pyLowerChar x = x := fun x hx =>
          pyLowerChar_fix x (hnotup x hx)
        calc List.map pyLowerChar p.data = List.map id p.data :=
              List.map_congr_left hfx
          _ = p.data := List.map_id p.data
      have hne0 : p.data ≠ [] := by
        rw [hd]
        simp
      have hne2 : p.data ≠ ['/'] := by
        rw [hd]
        simp
      simp only [hstr, if_neg hne0, hlow, if_pos hne2]

/-- C6, amended: normalisation is idempotent on every canonical-form
output — a path starting with a single `/`, without trailing slash
(except the root) and made of ordinary path characters (no `:`, `#`,
`?`, `;`, no control or upper-case characters).  It is NOT idempotent on
every URL string: see the counterexample, where the first normalisation
yields a `//`-prefixed path that re-parses as a netloc. -/
theorem c6_idempotent_on_canonical (u p : String)
    (h1 : normalise_path u = some p) (h2 : isCanonicalForm p = true) :
    normalise_path p = normalise_path u := by
  rw [h1, normalise_path_canonical p h2]

/-- C6, witness: the canonical output `/foo` re-normalises to itself. -/
theorem c6_idempotent_on_canonical_witness :
    normalise_path "https://Example.com/Foo/" = some "/foo"
    ∧ isCanonicalForm "/foo" = true
    ∧ normalise_path "/foo" = normalise_path "https://Example.com/Foo/" :=
  ⟨by decide, by decide,
    c6_idempotent_on_canonical "https://Example.com/Foo/" "/foo"
      (by decide) (by decide)⟩

/-- C6, counterexample: `normalise_path` is not idempotent on
`https://example.com//foo`: the first pass yields `//foo`, and
re-normalising `//foo` parses `foo` as a network location, yielding
`/`. -/
theorem c6_counterexample :
    normalise_path "https://example.com//foo" = some "//foo"
    ∧ normalise_path "//foo" = some "/"
    ∧ (some ("/" : String) ≠ some "//foo") := by
  refine ⟨?_, ?_, ?_⟩ <;> decide

theorem alook_eq_none_iff {β : Type} (m : List (String × β)) (k : String) :
    alook m k = none ↔ k ∉ keysOf m := by
  induction m with
  | nil => simp [alook, keysOf]
  | cons e t ih =>
    rcases e with ⟨k', v⟩
    by_cases h : k' = k
    · simp [alook, keysOf, h]
    · simp [alook, keysOf, h, ih, Ne.symm h]

theorem alook_mem {β : Type} (m : List (String × β)) (k : String) (v : β)
    (h : alook m k = some v) : (k, v) ∈ m := by
  induction m with
  | nil => cases h
  | cons e t ih =>
    rcases e with ⟨k', v'⟩
    by_cases hk : k' = k
    · rw [alook, if_pos hk] at h
      injection h with h
      subst hk h
      exact List.mem_cons_self _ _
    · rw [alook, if_neg hk] at h
      exact List.mem_cons_of_mem _ (ih h)

theorem alook_append_some {β : Type} (m l : List (String × β)) (k : String) (v : β)
    (h : alook m k = some v) : alook (m ++ l) k = some v := by
  induction m with
  | nil => cases h
  | cons e t ih =>
    rcases e with ⟨k', v'⟩
    by_cases hk : k' = k
    · rw [alook, if_pos hk] at h
      rw [List.cons_append, alook, if_pos hk]
      exact h
    · rw [alook, if_neg hk] at h
      rw [List.cons_append, alook, if_neg hk]
      exact ih h

theorem alook_append_none {β : Type} (m l : List (String × β)) (k : String)
    (h : alook m k = none) : alook (m ++ l) k = alook l k := by
  induction m with
  | nil => rfl
  | cons e t ih =>
    rcases e with ⟨k', v'⟩
    by_cases hk : k' = k
    · rw [alook, if_pos hk] at h
      cases h
    · rw [alook, if_neg hk] at h
      rw [List.cons_append, alook, if_neg hk]
      exact ih h

theorem alook_updAt_self {β : Type} (m : List (String × β)) (k : String) (f : β → β) :
    alook (updAt m k f) k = (alook m k).map f := by
  unfold updAt
  induction m with
  | nil => rfl
  | cons e t ih =>
    rcases e with ⟨k', v⟩
    by_cases h : k' = k
    · subst h
      simp [alook]
    · simp [alook, h, ih]

theorem alook_updAt_ne {β : Type} (m : List (String × β)) (k : String) (f : β → β)
    (p : String) (h : p ≠ k) : alook (updAt m k f) p = alook m p := by
  unfold updAt
  induction m with
  | nil => rfl
  | cons e t ih =>
    rcases e with ⟨k', v⟩
    by_cases hk : k' = k
    · subst hk
      simp [alook, Ne.symm h, ih]
    · by_cases hp : k' = p
      · subst hp
        simp [alook, hk]
      · simp [alook, hk, hp, ih]

theorem alook_ensure_self (m : OldMap) (p raw : String) :
    alook (ensure_record m p raw) p
      = some ((alook m p).getD (initRec p raw)) := by
  unfold ensure_record
  cases h : alook m p with
  | some v => simp [h]
  | none =>
    rw [alook_append_none m _ p h]
    simp [alook]

theorem alook_ensure_ne (m : OldMap) (q raw p : String) (h : p ≠ q) :
    alook (ensure_record m q raw) p = alook m p := by
  unfold ensure_record
  cases hq : alook m q with
  | some v => rfl
  | none =>
    cases hp : alook m p with
    | some v => exact alook_append_some m _ p v hp
    | none =>
      have hqp : q ≠ p := fun hx => h hx.symm
      rw [alook_append_none m _ p hp]
      simp [alook, hqp]

theorem alook_stepAt_self (m : OldMap) (q raw : String) (f : OldRec → OldRec) :
    alook (updAt (ensure_record m q raw) q f) q
      = some (f ((alook m q).getD (initRec q raw))) := by
  rw [alook_updAt_self, alook_ensure_self]
  rfl

theorem alook_stepAt_ne (m : OldMap) (q raw : String) (f : OldRec → OldRec)
    (p : String) (h : p ≠ q) :
    alook (updAt (ensure_record m q raw) q f) p = alook m p := by
  rw [alook_updAt_ne _ _ _ _ h, alook_ensure_ne _ _ _ _ h]

theorem alook_dictInsert_self {β : Type} (m : List (String × β)) (k : String) (v : β) :
    alook (dictInsert m k v) k = some v := by
  unfold dictInsert
  cases h : alook m k with
  | none =>
    rw [alook_append_none m _ k h]
    simp [alook]
  | some w =>
    show alook (updAt m k (fun _ => v)) k = some v
    rw [alook_updAt_self, h]
    rfl

theorem alook_dictInsert_ne {β : Type} (m : List (String × β)) (k : String) (v : β)
    (p : String) (h : p ≠ k) : alook (dictInsert m k v) p = alook m p := by
  unfold dictInsert
  cases hk : alook m k with
  | none =>
    cases hp : alook m p with
    | some w => exact alook_append_some m _ p w hp
    | none =>
      have hkp : k ≠ p := fun hx => h hx.symm
      rw [alook_append_none m _ p hp]
      simp [alook, hkp]
  | some w =>
    show alook (updAt m k (fun _ => v)) p = alook m p
    exact alook_updAt_ne _ _ _ _ h

theorem keysOf_updAt {β : Type} (m : List (String × β)) (k : String) (f : β → β) :
    keysOf (updAt m k f) = keysOf m := by
  unfold keysOf updAt
  rw [List.map_map]
  exact List.map_congr_left (fun e _ => by by_cases h : e.1 = k <;> simp [h])

theorem keysOf_append {β : Type} (m l : List (String × β)) :
    keysOf (m ++ l) = keysOf m ++ keysOf l := by
  unfold keysOf
  exact List.map_append _ _ _

theorem newIngestFile_keeps (m : NewMap) (fname : String) (urls : List String)
    (m' : NewMap) (p : String)
    (hrun : newIngestFile m fname urls = some m')
    (h : (alook m p).map NewRec.sitemap_source = some fname) :
    (alook m' p).map NewRec.sitemap_source = some fname := by
  induction urls generalizing m with
  | nil =>
    injection hrun with hrun
    rwa [← hrun]
  | cons u rest ih =>
    unfold newIngestFile at hrun
    cases hnp : normalise_path u with
    | none =>
      rw [hnp] at hrun
      exact Option.noConfusion hrun
    | some p0 =>
      rw [hnp] at hrun
      replace hrun : newIngestFile
          (if (strEnds p0 ".xml" || strEnds p0 ".kml") = true then m
            else dictInsert m p0 ⟨u, fname⟩) fname rest = some m' := hrun
      by_cases hskip : (strEnds p0 ".xml" || strEnds p0 ".kml") = true
      · rw [if_pos hskip] at hrun
        exact ih m hrun h
      · rw [if_neg hskip] at hrun
        apply ih _ hrun
        by_cases hpp : p0 = p
        · subst hpp
          rw [alook_dictInsert_self]
          rfl
        · rw [alook_dictInsert_ne _ _ _ _ (fun hx => hpp hx.symm)]
          exact h

theorem newIngestFile_hit (m : NewMap) (fname : String) (urls : List String)
    (m' : NewMap) (p : String)
    (hrun : newIngestFile m fname urls = some m')
    (hmem : ∃ u ∈ urls, normalise_path u = some p
      ∧ strEnds p ".xml" = false ∧ strEnds p ".kml" = false) :
    (alook m' p).map NewRec.sitemap_source = some fname := by
  induction urls generalizing m with
  | nil => simp at hmem
  | cons u rest ih =>
    unfold newIngestFile at hrun
    rcases hmem with ⟨w, hw, hwp, hwx, hwk⟩
    rcases List.mem_cons.mp hw with hw0 | hw0
    · subst hw0
      rw [hwp] at hrun
      replace hrun : newIngestFile
          (if (strEnds p ".xml" || strEnds p ".kml") = true then m
            else dictInsert m p ⟨w, fname⟩) fname rest = some m' := hrun
      rw [if_neg (by rw [hwx, hwk]; exact Bool.false_ne_true)] at hrun
      exact newIngestFile_keeps _ _ _ _ _ hrun (by rw [alook_dictInsert_self]; rfl)
    · cases hnp : normalise_path u with
      | none =>
        rw [hnp] at hrun
        exact Option.noConfusion hrun
      | some p0 =>
        rw [hnp] at hrun
        replace hrun : newIngestFile
            (if (strEnds p0 ".xml" || strEnds p0 ".kml") = true then m
              else dictInsert m p0 ⟨u, fname⟩) fname rest = some m' := hrun
        by_cases hskip : (strEnds p0 ".xml" || strEnds p0 ".kml") = true
        · rw [if_pos hskip] at hrun
          exact ih m hrun ⟨w, hw0, hwp, hwx, hwk⟩
        · rw [if_neg hskip] at hrun
          exact ih _ hrun ⟨w, hw0, hwp, hwx, hwk⟩

theorem newIngestFile_untouched (m : NewMap) (fname : String) (urls : List String)
    (m' : NewMap) (p : String)
    (hrun : newIngestFile m fname urls = some m')
    (hno : ∀ u ∈ urls, ∀ p', normalise_path u = some p' →
      strEnds p' ".xml" = false → strEnds p' ".kml" = false → p' ≠ p) :
    alook m' p = alook m p := by
  induction urls generalizing m with
  | nil =>
    injection hrun with hrun
    rw [← hrun]
  | cons u rest ih =>
    unfold newIngestFile at hrun
    cases hnp : normalise_path u with
    | none =>
      rw [hnp] at hrun
      exact Option.noConfusion hrun
    | some p0 =>
      rw [hnp] at hrun
      replace hrun : newIngestFile
          (if (strEnds p0 ".xml" || strEnds p0 ".kml") = true then m
            else dictInsert m p0 ⟨u, fname⟩) fname rest = some m' := hrun
      by_cases hskip : (strEnds p0 ".xml" || strEnds p0 ".kml") = true
      · rw [if_pos hskip] at hrun
        exact ih m hrun (fun u' hu' => hno u' (List.mem_cons_of_mem _ hu'))
      · rw [if_neg hskip] at hrun
        have hfalse := Bool.or_eq_false_iff.mp (Bool.eq_false_iff.mpr hskip)
        have hne : p0 ≠ p :=
          hno u (List.mem_cons_self _ _) p0 hnp hfalse.1 hfalse.2
        rw [ih _ hrun (fun u' hu' => hno u' (List.mem_cons_of_mem _ hu')),
          alook_dictInsert_ne _ _ _ _ (fun hx => hne hx.symm)]

theorem newIngestFile_nosuffix (m : NewMap) (fname : String) (urls : List String)
    (m' : NewMap) (q : String)
    (hrun : newIngestFile m fname urls = some m')
    (hq : strEnds q ".xml" = true ∨ strEnds q ".kml" = true)
    (h : alook m q = none) : alook m' q = none := by
  induction urls generalizing m with
  | nil =>
    injection hrun with hrun
    rwa [← hrun]
  | cons u rest ih =>
    unfold newIngestFile at hrun
    cases hnp : normalise_path u with
    | none =>
      rw [hnp] at hrun
      exact Option.noConfusion hrun
    | some p0 =>
      rw [hnp] at hrun
      replace hrun : newIngestFile
          (if (strEnds p0 ".xml" || strEnds p0 ".kml") = true then m
            else dictInsert m p0 ⟨u, fname⟩) fname rest = some m' := hrun
      by_cases hskip : (strEnds p0 ".xml" || strEnds p0 ".kml") = true
      · rw [if_pos hskip] at hrun
        exact ih m hrun h
      · rw [if_neg hskip] at hrun
        have hfalse := Bool.or_eq_false_iff.mp (Bool.eq_false_iff.mpr hskip)
        have hne : q ≠ p0 := by
          intro hx
          subst hx
          rcases hq with hq | hq
          · rw [hq] at hfalse
            exact Bool.noConfusion hfalse.1
          · rw [hq] at hfalse
            exact Bool.noConfusion hfalse.2
        apply ih _ hrun
        rw [alook_dictInsert_ne _ _ _ _ hne]
        exact h

theorem newFilesFold_append (m : NewMap) (xs ys : List (String × List String)) :
    newFilesFold m (xs ++ ys)
      = match newFilesFold m xs with
        | none => none
        | some m' => newFilesFold m' ys := by
  induction xs generalizing m with
  | nil => rfl
  | cons g rest ih =>
    rcases g with ⟨fname, urls⟩
    show (match newIngestFile m fname urls with
          | none => none
          | some m1 => newFilesFold m1 (rest ++ ys))
        = match (match newIngestFile m fname urls with
                 | none => none
                 | some m1 => newFilesFold m1 rest) with
          | none => none
          | some m2 => newFilesFold m2 ys
    cases newIngestFile m fname urls with
    | none => rfl
    | some m1 => exact ih m1

theorem newFilesFold_untouched (m : NewMap) (files : List (String × List String))
    (m' : NewMap) (p : String)
    (hrun : newFilesFold m files = some m')
    (hno : ∀ g ∈ files, ∀ u ∈ g.2, ∀ p', normalise_path u = some p' →
      strEnds p' ".xml" = false → strEnds p' ".kml" = false → p' ≠ p) :
    alook m' p = alook m p := by
  induction files generalizing m with
  | nil =>
    injection hrun with hrun
    rw [← hrun]
  | cons g rest ih =>
    rcases g with ⟨fname, urls⟩
    unfold newFilesFold at hrun
    cases h : newIngestFile m fname urls with
    | none =>
      rw [h] at hrun
      exact Option.noConfusion hrun
    | some m1 =>
      rw [h] at hrun
      replace hrun : newFilesFold m1 rest = some m' := hrun
      rw [ih m1 hrun (fun g' hg' => hno g' (List.mem_cons_of_mem _ hg'))]
      exact newIngestFile_untouched _ _ _ _ _ h
        (fun u hu => hno _ (List.mem_cons_self _ _) u hu)

theorem newFilesFold_nosuffix (m : NewMap) (files : List (String × List String))
    (m' : NewMap) (q : String)
    (hrun : newFilesFold m files = some m')
    (hq : strEnds q ".xml" = true ∨ strEnds q ".kml" = true)
    (h : alook m q = none) : alook m' q = none := by
  induction files generalizing m with
  | nil =>
    injection hrun with hrun
    rwa [← hrun]
  | cons g rest ih =>
    rcases g with ⟨fname, urls⟩
    unfold newFilesFold at hrun
    cases hstep : newIngestFile m fname urls with
    | none =>
      rw [hstep] at hrun
      exact Option.noConfusion hrun
    | some m1 =>
      rw [hstep] at hrun
      replace hrun : newFilesFold m1 rest = some m' := hrun
      exact ih m1 hrun (newIngestFile_nosuffix _ _ _ _ _ hstep hq h)

/-- C4, amended: when the same new-site path occurs in more than one
new-site sitemap file, the recorded `sitemap_source` is the LAST
sitemap file (in processing order) mentioning the path — each mention
overwrites the stored record — not the first; paths ending in `.xml` or
`.kml` are discarded and never become new-site records. -/
theorem c4_last_sitemap_wins (pre : List (String × List String))
    (f : String × List String) (post : List (String × List String)) (m : NewMap)
    (hrun : buildNewUrls (pre ++ f :: post) = some m) :
    (∀ p, (∃ u ∈ f.2, normalise_path u = some p
        ∧ strEnds p ".xml" = false ∧ strEnds p ".kml" = false) →
      (∀ g ∈ post, ∀ u ∈ g.2, ∀ p', normalise_path u = some p' →
        strEnds p' ".xml" = false → strEnds p' ".kml" = false → p' ≠ p) →
      (alook m p).map NewRec.sitemap_source = some f.1)
    ∧ (∀ q, strEnds q ".xml" = true ∨ strEnds q ".kml" = true →
        alook m q = none) := by
  unfold buildNewUrls at hrun
  rw [newFilesFold_append] at hrun
  cases h1 : newFilesFold [] pre with
  | none =>
    rw [h1] at hrun
    exact Option.noConfusion hrun
  | some m1 =>
    rw [h1] at hrun
    rcases f with ⟨fname, urls⟩
    replace hrun : newFilesFold m1 ((fname, urls) :: post) = some m := hrun
    unfold newFilesFold at hrun
    cases h2 : newIngestFile m1 fname urls with
    | none =>
      rw [h2] at hrun
      exact Option.noConfusion hrun
    | some m2 =>
      rw [h2] at hrun
      replace hrun : newFilesFold m2 post = some m := hrun
      constructor
      · intro p hmem hno
        rw [newFilesFold_untouched _ _ _ _ hrun hno]
        exact newIngestFile_hit _ _ _ _ _ h2 hmem
      · intro q hq
        exact newFilesFold_nosuffix _ _ _ _ hrun hq
          (newIngestFile_nosuffix _ _ _ _ _ h2 hq
            (newFilesFold_nosuffix _ _ _ _ h1 hq rfl))

/-- C4, witness: one sitemap file mentioning `/a`; its name is recorded,
and an `.xml` path is absent. -/
theorem c4_last_sitemap_wins_witness :
    (alook [("/a", (⟨"https://staging.eridehero.com/a", "post-sitemap.xml"⟩ : NewRec))]
        "/a").map NewRec.sitemap_source = some "post-sitemap.xml"
    ∧ alook [("/a", (⟨"https://staging.eridehero.com/a", "post-sitemap.xml"⟩ : NewRec))]
        "/x.xml" = none := by
  have h := c4_last_sitemap_wins []
    ("post-sitemap.xml", ["https://staging.eridehero.com/a"]) []
    [("/a", ⟨"https://staging.eridehero.com/a", "post-sitemap.xml"⟩)] (by decide)
  exact ⟨h.1 "/a" ⟨"https://staging.eridehero.com/a", by decide, by decide,
      by decide, by decide⟩ (by intro g hg; simp at hg),
    h.2 "/x.xml" (Or.inl (by decide))⟩

/-- C4, counterexample: when two sitemap files both mention `/p`, the
recorded `sitemap_source` is the second (later) file, not the first as
the claim states. -/
theorem c4_counterexample :
    (buildNewUrls [("a-sitemap.xml", ["https://staging.eridehero.com/p"]),
        ("b-sitemap.xml", ["https://staging.eridehero.com/p"])]).map
        (fun m => (alook m "/p").map NewRec.sitemap_source)
      = some (some "b-sitemap.xml")
    ∧ ("b-sitemap.xml" : String) ≠ "a-sitemap.xml" := by
  refine ⟨?_, ?_⟩ <;> decide

theorem addTag_sources_ne (r : OldRec) (t : String) : (addTag r t).sources ≠ [] := by
  unfold addTag
  split
  · next h => exact List.ne_nil_of_mem h
  · simp

theorem smApply_sources_ne (r : OldRec) : (smApply r).sources ≠ [] :=
  addTag_sources_ne r _

theorem gscApply_sources_ne (e : GscEntry) (r : OldRec) :
    (gscApply e r).sources ≠ [] := by
  simp only [gscApply]
  split
  · exact addTag_sources_ne r _
  · exact addTag_sources_ne r _

theorem rmApply_sources_ne (rd : RmRule) (r : OldRec) :
    (rmApply rd r).sources ≠ [] :=
  addTag_sources_ne r _

theorem taApply_sources_ne (td : TaRec) (r : OldRec) :
    (taApply td r).sources ≠ [] :=
  addTag_sources_ne r _

theorem step_tagged (m : OldMap) (q raw : String) (f : OldRec → OldRec)
    (hm : ∀ e ∈ m, e.2.sources ≠ []) (hf : ∀ x, (f x).sources ≠ []) :
    ∀ e ∈ updAt (ensure_record m q raw) q f, e.2.sources ≠ [] := by
  intro e' he'
  unfold updAt at he'
  rcases List.mem_map.mp he' with ⟨e, hem, hge⟩
  by_cases h1 : e.1 = q
  · rw [if_pos h1] at hge
    rw [← hge]
    exact hf e.2
  · rw [if_neg h1] at hge
    subst hge
    unfold ensure_record at hem
    cases ha : alook m q with
    | some v =>
      rw [ha] at hem
      exact hm e hem
    | none =>
      rw [ha] at hem
      rcases List.mem_append.mp hem with hem | hem
      · exact hm e hem
      · rcases List.mem_singleton.mp hem with rfl
        exact absurd rfl h1

theorem phaseSitemap_tagged (m : OldMap) (entries : List (String × String))
    (hm : ∀ e ∈ m, e.2.sources ≠ []) :
    ∀ e ∈ phaseSitemap m entries, e.2.sources ≠ [] := by
  induction entries generalizing m with
  | nil => exact hm
  | cons hd rest ih =>
    rcases hd with ⟨path, url⟩
    exact ih _ (step_tagged m path url smApply hm smApply_sources_ne)

theorem gscMergeEntry_tagged (m : OldMap) (e : GscEntry) (m' : OldMap)
    (hrun : gscMergeEntry m e = some m')
    (hm : ∀ x ∈ m, x.2.sources ≠ []) :
    ∀ x ∈ m', x.2.sources ≠ [] := by
  unfold gscMergeEntry at hrun
  split at hrun
  · exact Option.noConfusion hrun
  · split at hrun
    · injection hrun with hrun
      rw [← hrun]
      exact hm
    · split at hrun
      · exact Option.noConfusion hrun
      · split at hrun
        · injection hrun with hrun
          rw [← hrun]
          exact hm
        · split at hrun
          · injection hrun with hrun
            rw [← hrun]
            exact hm
          · split at hrun
            · injection hrun with hrun
              rw [← hrun]
              exact hm
            · injection hrun with hrun
              rw [← hrun]
              exact step_tagged m _ _ _ hm (gscApply_sources_ne e)

theorem phaseGsc_tagged (m : OldMap) (T : GscTable) (m' : OldMap)
    (hrun : phaseGsc m T = some m')
    (hm : ∀ x ∈ m, x.2.sources ≠ []) :
    ∀ x ∈ m', x.2.sources ≠ [] := by
  induction T generalizing m with
  | nil =>
    injection hrun with hrun
    rw [← hrun]
    exact hm
  | cons hd rest ih =>
    rcases hd with ⟨k, e⟩
    unfold phaseGsc at hrun
    cases hstep : gscMergeEntry m e with
    | none =>
      rw [hstep] at hrun
      exact Option.noConfusion hrun
    | some m1 =>
      rw [hstep] at hrun
      replace hrun : phaseGsc m1 rest = some m' := hrun
      exact ih m1 hrun (gscMergeEntry_tagged m e m1 hstep hm)

theorem phaseRankmath_tagged (m : OldMap) (rules : List (String × RmRule))
    (hm : ∀ e ∈ m, e.2.sources ≠ []) :
    ∀ e ∈ phaseRankmath m rules, e.2.sources ≠ [] := by
  induction rules generalizing m with
  | nil => exact hm
  | cons hd rest ih =>
    rcases hd with ⟨src, rd⟩
    exact ih _ (step_tagged m src "" (rmApply rd) hm (rmApply_sources_ne rd))

theorem phaseTa_tagged (m : OldMap) (ta : List (String × TaRec))
    (hm : ∀ e ∈ m, e.2.sources ≠ []) :
    ∀ e ∈ phaseTa m ta, e.2.sources ≠ [] := by
  induction ta generalizing m with
  | nil => exact hm
  | cons hd rest ih =>
    rcases hd with ⟨slug, td⟩
    exact ih _ (step_tagged m _ "" (taApply td) hm (taApply_sources_ne td))

theorem enrichClassify_fields (p : String) (r : OldRec) :
    (enrichClassify p r).sources = r.sources
    ∧ (enrichClassify p r).gsc_status = r.gsc_status
    ∧ (enrichClassify p r).has_rankmath_redirect = r.has_rankmath_redirect
    ∧ (enrichClassify p r).rankmath_dest = r.rankmath_dest
    ∧ (enrichClassify p r).rankmath_type = r.rankmath_type :=
  ⟨rfl, rfl, rfl, rfl, rfl⟩

theorem enrichRedirect_sources (rank : List (String × RmRule)) (p : String)
    (r : OldRec) :
    (enrichRedirect rank p r).sources = r.sources
    ∧ (enrichRedirect rank p r).gsc_status = r.gsc_status := by
  unfold enrichRedirect
  split
  · split <;> exact ⟨rfl, rfl⟩
  · exact ⟨rfl, rfl⟩

theorem enrichRedirect_of_yes (rank : List (String × RmRule)) (p : String)
    (r : OldRec) (h : r.has_rankmath_redirect = "yes") :
    enrichRedirect rank p r = r := by
  unfold enrichRedirect
  rw [if_neg (by simp [h])]

theorem enrichNewSite_fields (nu : NewMap) (p : String) (r : OldRec) :
    (enrichNewSite nu p r).sources = r.sources
    ∧ (enrichNewSite nu p r).gsc_status = r.gsc_status
    ∧ (enrichNewSite nu p r).has_rankmath_redirect = r.has_rankmath_redirect
    ∧ (enrichNewSite nu p r).rankmath_dest = r.rankmath_dest
    ∧ (enrichNewSite nu p r).rankmath_type = r.rankmath_type := by
  unfold enrichNewSite
  split <;> exact ⟨rfl, rfl, rfl, rfl, rfl⟩

theorem enrichRec_some (rank : List (String × RmRule)) (nu : NewMap)
    (p : String) (r r' : OldRec) (h : enrichRec rank nu p r = some r') :
    ∃ parsed,
      urlparseE (enrichNewSite nu p (enrichRedirect rank p
        (enrichClassify p r))).raw_url = some parsed
      ∧ r' = { enrichNewSite nu p (enrichRedirect rank p (enrichClassify p r)) with
          notes := joinSep "; " (recNotes nu p parsed) } := by
  unfold enrichRec at h
  replace h :
      (match urlparseE (enrichNewSite nu p (enrichRedirect rank p
          (enrichClassify p r))).raw_url with
        | none => none
        | some parsed =>
          some { enrichNewSite nu p (enrichRedirect rank p (enrichClassify p r)) with
              notes := joinSep "; " (recNotes nu p parsed) }) = some r' := h
  cases hu : urlparseE (enrichNewSite nu p (enrichRedirect rank p
      (enrichClassify p r))).raw_url with
  | none =>
    rw [hu] at h
    exact Option.noConfusion h
  | some parsed =>
    rw [hu] at h
    injection h with h
    exact ⟨parsed, rfl, h.symm⟩

theorem enrichRec_fields (rank : List (String × RmRule)) (nu : NewMap)
    (p : String) (r r' : OldRec) (h : enrichRec rank nu p r = some r') :
    r'.sources = r.sources ∧ r'.gsc_status = r.gsc_status := by
  rcases enrichRec_some rank nu p r r' h with ⟨parsed, _, hr⟩
  rw [hr]
  constructor
  · show (enrichNewSite nu p (enrichRedirect rank p (enrichClassify p r))).sources
      = r.sources
    rw [(enrichNewSite_fields nu p _).1, (enrichRedirect_sources rank p _).1,
      (enrichClassify_fields p r).1]
  · show (enrichNewSite nu p (enrichRedirect rank p (enrichClassify p r))).gsc_status
      = r.gsc_status
    rw [(enrichNewSite_fields nu p _).2.1, (enrichRedirect_sources rank p _).2,
      (enrichClassify_fields p r).2.1]

theorem phaseEnrich_lookup (rank : List (String × RmRule)) (nu : NewMap)
    (m m' : OldMap) (hrun : phaseEnrich rank nu m = some m')
    (p : String) (r : OldRec) (h : alook m p = some r) :
    ∃ r', enrichRec rank nu p r = some r' ∧ alook m' p = some r' := by
  induction m generalizing m' with
  | nil => cases h
  | cons hd rest ih =>
    rcases hd with ⟨q, v⟩
    unfold phaseEnrich at hrun
    cases henr : enrichRec rank nu q v with
    | none =>
      rw [henr] at hrun
      exact Option.noConfusion hrun
    | some v' =>
      rw [henr] at hrun
      cases hrec : phaseEnrich rank nu rest with
      | none =>
        rw [hrec] at hrun
        exact Option.noConfusion hrun
      | some rest' =>
        rw [hrec] at hrun
        injection hrun with hrun
        rw [← hrun]
        rw [alook] at h
        by_cases hq : q = p
        · rw [if_pos hq] at h
          injection h with h
          subst hq h
          exact ⟨v', henr, by rw [alook, if_pos rfl]⟩
        · rw [if_neg hq] at h
          rcases ih rest' hrec h with ⟨r', hr1, hr2⟩
          exact ⟨r', hr1, by rw [alook, if_neg hq]; exact hr2⟩

theorem phaseEnrich_mem (rank : List (String × RmRule)) (nu : NewMap)
    (m m' : OldMap) (hrun : phaseEnrich rank nu m = some m') :
    ∀ e' ∈ m', ∃ e ∈ m, e'.1 = e.1 ∧ enrichRec rank nu e.1 e.2 = some e'.2 := by
  induction m generalizing m' with
  | nil =>
    injection hrun with hrun
    rw [← hrun]
    intro e' he'
    exact absurd he' (List.not_mem_nil e')
  | cons hd rest ih =>
    rcases hd with ⟨q, v⟩
    unfold phaseEnrich at hrun
    cases henr : enrichRec rank nu q v with
    | none =>
      rw [henr] at hrun
      exact Option.noConfusion hrun
    | some v' =>
      rw [henr] at hrun
      cases hrec : phaseEnrich rank nu rest with
      | none =>
        rw [hrec] at hrun
        exact Option.noConfusion hrun
      | some rest' =>
        rw [hrec] at hrun
        injection hrun with hrun
        rw [← hrun]
        intro e' he'
        rcases List.mem_cons.mp he' with he' | he'
        · subst he'
          exact ⟨(q, v), List.mem_cons_self _ _, rfl, henr⟩
        · rcases ih rest' hrec e' he' with ⟨e, hem, h1, h2⟩
          exact ⟨e, List.mem_cons_of_mem _ hem, h1, h2⟩

/-- C10: every record of the final old-site map carries at least one
provenance tag — each of the four merge loops adds a tag immediately
after creating or fetching a record, the enrichment pass preserves the
tag set, and nothing else creates records. -/
theorem c10_all_records_tagged (osm : List (String × String))
    (gfr : List (String × List (String × String)))
    (rank : List (String × RmRule)) (ta : List (String × TaRec))
    (nu : NewMap) (m : OldMap)
    (hrun : buildOldMap osm gfr rank ta nu = some m) :
    ∀ e ∈ m, e.2.sources ≠ [] := by
  unfold buildOldMap at hrun
  cases hg : buildGscStatuses gfr with
  | none =>
    rw [hg] at hrun
    exact Option.noConfusion hrun
  | some statuses =>
    rw [hg] at hrun
    replace hrun :
        (match phaseGsc (phaseSitemap [] osm) statuses with
         | none => none
         | some m2 => phaseEnrich rank nu (phaseTa (phaseRankmath m2 rank) ta))
        = some m := hrun
    cases h2 : phaseGsc (phaseSitemap [] osm) statuses with
    | none =>
      rw [h2] at hrun
      exact Option.noConfusion hrun
    | some m2 =>
      rw [h2] at hrun
      replace hrun :
          phaseEnrich rank nu (phaseTa (phaseRankmath m2 rank) ta) = some m := hrun
      have t0 : ∀ e ∈ ([] : OldMap), e.2.sources ≠ [] := by
        intro e he
        exact absurd he (List.not_mem_nil e)
      have t1 := phaseSitemap_tagged [] osm t0
      have t2 := phaseGsc_tagged _ _ _ h2 t1
      have t3 := phaseRankmath_tagged m2 rank t2
      have t4 := phaseTa_tagged _ ta t3
      intro e' he'
      rcases phaseEnrich_mem rank nu _ _ hrun e' he' with ⟨e, hem, _, henr⟩
      rw [(enrichRec_fields rank nu e.1 e.2 e'.2 henr).1]
      exact t4 e hem

/-- C10, witness: a one-sitemap run produces a record tagged `sitemap`,
and the theorem applies to it. -/
theorem c10_all_records_tagged_witness :
    (("/a", (⟨"/a", "https://eridehero.com/a", ["sitemap"], "post",
        "Posts — Other", "", "", "", "", "", "", "", "", "no", "", ""⟩ : OldRec))
      : String × OldRec).2.sources ≠ [] :=
  c10_all_records_tagged [("/a", "https://eridehero.com/a")] [] [] [] []
    [("/a", ⟨"/a", "https://eridehero.com/a", ["sitemap"], "post",
        "Posts — Other", "", "", "", "", "", "", "", "", "no", "", ""⟩)]
    (by decide) _ (by decide)

theorem rmApply_fields (rd : RmRule) (r : OldRec) :
    (rmApply rd r).has_rankmath_redirect = "yes"
    ∧ (rmApply rd r).rankmath_dest = rd.destination
    ∧ (rmApply rd r).rankmath_type = rd.rtype :=
  ⟨rfl, rfl, rfl⟩

theorem taApply_rm_fields (td : TaRec) (r : OldRec) :
    (taApply td r).has_rankmath_redirect = r.has_rankmath_redirect
    ∧ (taApply td r).rankmath_dest = r.rankmath_dest
    ∧ (taApply td r).rankmath_type = r.rankmath_type := by
  unfold taApply addTag
  split <;> exact ⟨rfl, rfl, rfl⟩

theorem phaseRankmath_skip (m : OldMap) (rules : List (String × RmRule))
    (src : String) (h : src ∉ keysOf rules) :
    alook (phaseRankmath m rules) src = alook m src := by
  induction rules generalizing m with
  | nil => rfl
  | cons hd rest ih =>
    rcases hd with ⟨q, rd⟩
    have hq : q ≠ src := by
      intro hx
      exact h (by rw [hx]; exact List.mem_cons_self _ _)
    have hrest : src ∉ keysOf rest := fun hx => h (List.mem_cons_of_mem _ hx)
    show alook (phaseRankmath (updAt (ensure_record m q "") q (rmApply rd)) rest) src
      = alook m src
    rw [ih _ hrest, alook_stepAt_ne _ _ _ _ _ (fun hx => hq hx.symm)]

theorem phaseRankmath_append (m : OldMap) (xs ys : List (String × RmRule)) :
    phaseRankmath m (xs ++ ys) = phaseRankmath (phaseRankmath m xs) ys := by
  induction xs generalizing m with
  | nil => rfl
  | cons hd rest ih =>
    rcases hd with ⟨q, rd⟩
    exact ih _

theorem phaseRankmath_hit (m : OldMap) (l₁ : List (String × RmRule)) (src : String)
    (rd : RmRule) (l₂ : List (String × RmRule)) (hnot : src ∉ keysOf l₂) :
    (alook (phaseRankmath m (l₁ ++ (src, rd) :: l₂)) src).map (fun r =>
        (r.has_rankmath_redirect, r.rankmath_dest, r.rankmath_type))
      = some ("yes", rd.destination, rd.rtype) := by
  rw [phaseRankmath_append]
  show (alook (phaseRankmath
      (updAt (ensure_record (phaseRankmath m l₁) src "") src (rmApply rd)) l₂)
      src).map _ = _
  rw [phaseRankmath_skip _ _ _ hnot, alook_stepAt_self]
  rcases rmApply_fields rd ((alook (phaseRankmath m l₁) src).getD (initRec src ""))
    with ⟨h1, h2, h3⟩
  simp [Option.map_some', h1, h2, h3]

theorem phaseTa_pres_rm (m : OldMap) (ta : List (String × TaRec)) (src : String)
    (r : OldRec) (h : alook m src = some r) :
    ∃ r', alook (phaseTa m ta) src = some r'
      ∧ r'.has_rankmath_redirect = r.has_rankmath_redirect
      ∧ r'.rankmath_dest = r.rankmath_dest
      ∧ r'.rankmath_type = r.rankmath_type := by
  induction ta generalizing m r with
  | nil => exact ⟨r, h, rfl, rfl, rfl⟩
  | cons hd rest ih =>
    rcases hd with ⟨slug, td⟩
    show ∃ r', alook (phaseTa
        (updAt (ensure_record m ("/recommends/" ++ slug) "")
          ("/recommends/" ++ slug) (taApply td)) rest) src = some r' ∧ _
    by_cases hp : src = "/recommends/" ++ slug
    · subst hp
      have hstep := alook_stepAt_self m ("/recommends/" ++ slug) "" (taApply td)
      rw [h, Option.getD_some] at hstep
      rcases ih _ _ hstep with ⟨r', h1, h2, h3, h4⟩
      rcases taApply_rm_fields td r with ⟨t1, t2, t3⟩
      refine ⟨r', h1, ?_, ?_, ?_⟩
      · rw [h2, t1]
      · rw [h3, t2]
      · rw [h4, t3]
    · have hstep := alook_stepAt_ne m ("/recommends/" ++ slug) "" (taApply td) src hp
      rw [h] at hstep
      exact ih _ _ hstep

theorem enrichRec_rm (rank : List (String × RmRule)) (nu : NewMap)
    (p : String) (r r' : OldRec) (hy : r.has_rankmath_redirect = "yes")
    (h : enrichRec rank nu p r = some r') :
    r'.has_rankmath_redirect = "yes"
    ∧ r'.rankmath_dest = r.rankmath_dest
    ∧ r'.rankmath_type = r.rankmath_type := by
  rcases enrichRec_some rank nu p r r' h with ⟨parsed, _, hr⟩
  have hcy : (enrichClassify p r).has_rankmath_redirect = "yes" := hy
  rw [hr, enrichRedirect_of_yes rank p _ hcy]
  rcases enrichNewSite_fields nu p (enrichClassify p r) with ⟨_, _, n1, n2, n3⟩
  refine ⟨?_, ?_, ?_⟩
  · show (enrichNewSite nu p (enrichClassify p r)).has_rankmath_redirect = "yes"
    rw [n1]
    exact hy
  · show (enrichNewSite nu p (enrichClassify p r)).rankmath_dest = r.rankmath_dest
    rw [n2]
    rfl
  · show (enrichNewSite nu p (enrichClassify p r)).rankmath_type = r.rankmath_type
    rw [n3]
    rfl

theorem nodup_stepAt (m : OldMap) (q raw : String) (f : OldRec → OldRec)
    (h : (keysOf m).Nodup) :
    (keysOf (updAt (ensure_record m q raw) q f)).Nodup := by
  rw [keysOf_updAt]
  unfold ensure_record
  cases ha : alook m q with
  | some v => exact h
  | none =>
    rw [keysOf_append]
    refine List.Nodup.append h (List.nodup_singleton q) ?_
    intro a ha1 ha2
    rcases List.mem_singleton.mp ha2 with rfl
    exact (alook_eq_none_iff m a).mp ha ha1

theorem phaseSitemap_nodup (m : OldMap) (entries : List (String × String))
    (h : (keysOf m).Nodup) : (keysOf (phaseSitemap m entries)).Nodup := by
  induction entries generalizing m with
  | nil => exact h
  | cons hd rest ih =>
    rcases hd with ⟨path, url⟩
    exact ih _ (nodup_stepAt m path url smApply h)

theorem gscMergeEntry_nodup (m : OldMap) (e : GscEntry) (m' : OldMap)
    (hrun : gscMergeEntry m e = some m') (h : (keysOf m).Nodup) :
    (keysOf m').Nodup := by
  unfold gscMergeEntry at hrun
  split at hrun
  · exact Option.noConfusion hrun
  · split at hrun
    · injection hrun with hrun
      rw [← hrun]
      exact h
    · split at hrun
      · exact Option.noConfusion hrun
      · split at hrun
        · injection hrun with hrun
          rw [← hrun]
          exact h
        · split at hrun
          · injection hrun with hrun
            rw [← hrun]
            exact h
          · split at hrun
            · injection hrun with hrun
              rw [← hrun]
              exact h
            · injection hrun with hrun
              rw [← hrun]
              exact nodup_stepAt m _ _ _ h

theorem phaseGsc_nodup (m : OldMap) (T : GscTable) (m' : OldMap)
    (hrun : phaseGsc m T = some m') (h : (keysOf m).Nodup) :
    (keysOf m').Nodup := by
  induction T generalizing m with
  | nil =>
    injection hrun with hrun
    rw [← hrun]
    exact h
  | cons hd rest ih =>
    rcases hd with ⟨k, e⟩
    unfold phaseGsc at hrun
    cases hstep : gscMergeEntry m e with
    | none =>
      rw [hstep] at hrun
      exact Option.noConfusion hrun
    | some m1 =>
      rw [hstep] at hrun
      replace hrun : phaseGsc m1 rest = some m' := hrun
      exact ih m1 hrun (gscMergeEntry_nodup m e m1 hstep h)

theorem phaseRankmath_nodup (m : OldMap) (rules : List (String × RmRule))
    (h : (keysOf m).Nodup) : (keysOf (phaseRankmath m rules)).Nodup := by
  induction rules generalizing m with
  | nil => exact h
  | cons hd rest ih =>
    rcases hd with ⟨q, rd⟩
    exact ih _ (nodup_stepAt m q "" (rmApply rd) h)

theorem phaseTa_nodup (m : OldMap) (ta : List (String × TaRec))
    (h : (keysOf m).Nodup) : (keysOf (phaseTa m ta)).Nodup := by
  induction ta generalizing m with
  | nil => exact h
  | cons hd rest ih =>
    rcases hd with ⟨slug, td⟩
    exact ih _ (nodup_stepAt m _ "" (taApply td) h)

theorem phaseEnrich_keys (rank : List (String × RmRule)) (nu : NewMap)
    (m m' : OldMap) (hrun : phaseEnrich rank nu m = some m') :
    keysOf m' = keysOf m := by
  induction m generalizing m' with
  | nil =>
    injection hrun with hrun
    rw [← hrun]
  | cons hd rest ih =>
    rcases hd with ⟨q, v⟩
    unfold phaseEnrich at hrun
    cases henr : enrichRec rank nu q v with
    | none =>
      rw [henr] at hrun
      exact Option.noConfusion hrun
    | some v' =>
      rw [henr] at hrun
      cases hrec : phaseEnrich rank nu rest with
      | none =>
        rw [hrec] at hrun
        exact Option.noConfusion hrun
      | some rest' =>
        rw [hrec] at hrun
        injection hrun with hrun
        rw [← hrun]
        show q :: keysOf rest' = q :: keysOf rest
        rw [ih rest' hrec]

/-- C8: a RankMath redirect rule whose source path is mentioned by no
sitemap, crawl-status, or affiliate source still yields exactly one
old-site record at that path (the final map's keys are duplicate-free
and the path is present), with `has_rankmath_redirect = "yes"` and the
rule's destination and type stored in `rankmath_dest` /
`rankmath_type`; a later rule for the same path replaces an earlier
one, so the record holds the last rule's fields. -/
theorem c8_redirect_only_record (osm : List (String × String))
    (gfr : List (String × List (String × String)))
    (rank : List (String × RmRule)) (ta : List (String × TaRec))
    (nu : NewMap) (m : OldMap)
    (l₁ l₂ : List (String × RmRule)) (src : String) (rd : RmRule)
    (hsplit : rank = l₁ ++ (src, rd) :: l₂)
    (hlast : src ∉ keysOf l₂)
    (hrun : buildOldMap osm gfr rank ta nu = some m)
    (hnosm : src ∉ keysOf osm)
    (hnogsc : ∀ fl ∈ gfr, ∀ pr ∈ fl.2, normalise_path pr.1 ≠ some src)
    (hnota : ∀ e ∈ ta, ("/recommends/" ++ e.1) ≠ src) :
    (keysOf m).Nodup
    ∧ (alook m src).map (fun r =>
        (r.has_rankmath_redirect, r.rankmath_dest, r.rankmath_type))
      = some ("yes", rd.destination, rd.rtype) := by
  unfold buildOldMap at hrun
  cases hg : buildGscStatuses gfr with
  | none =>
    rw [hg] at hrun
    exact Option.noConfusion hrun
  | some statuses =>
    rw [hg] at hrun
    replace hrun :
        (match phaseGsc (phaseSitemap [] osm) statuses with
         | none => none
         | some m2 => phaseEnrich rank nu (phaseTa (phaseRankmath m2 rank) ta))
        = some m := hrun
    cases h2 : phaseGsc (phaseSitemap [] osm) statuses with
    | none =>
      rw [h2] at hrun
      exact Option.noConfusion hrun
    | some m2 =>
      rw [h2] at hrun
      replace hrun :
          phaseEnrich rank nu (phaseTa (phaseRankmath m2 rank) ta) = some m := hrun
      constructor
      · have n0 : (keysOf ([] : OldMap)).Nodup := List.nodup_nil
        have n1 := phaseSitemap_nodup [] osm n0
        have n2 := phaseGsc_nodup _ _ _ h2 n1
        have n3 := phaseRankmath_nodup m2 rank n2
        have n4 := phaseTa_nodup _ ta n3
        rw [phaseEnrich_keys rank nu _ _ hrun]
        exact n4
      · have hhit := phaseRankmath_hit m2 l₁ src rd l₂ hlast
        rw [← hsplit] at hhit
        cases h3 : alook (phaseRankmath m2 rank) src with
        | none =>
          rw [h3] at hhit
          exact Option.noConfusion hhit
        | some r3 =>
          rw [h3] at hhit
          rw [Option.map_some'] at hhit
          injection hhit with hhit
          have hf3 : r3.has_rankmath_redirect = "yes"
              ∧ r3.rankmath_dest = rd.destination
              ∧ r3.rankmath_type = rd.rtype := by
            refine ⟨?_, ?_, ?_⟩
            · exact congrArg Prod.fst hhit
            · exact congrArg (fun x => x.2.1) hhit
            · exact congrArg (fun x => x.2.2) hhit
          rcases phaseTa_pres_rm _ ta src r3 h3 with ⟨r4, h4, f41, f42, f43⟩
          rcases phaseEnrich_lookup rank nu _ _ hrun src r4 h4 with ⟨r5, henr, h5⟩
          rcases enrichRec_rm rank nu src r4 r5 (by rw [f41]; exact hf3.1) henr
            with ⟨g1, g2, g3⟩
          rw [h5, Option.map_some', g1, g2, f42, hf3.2.1, g3, f43, hf3.2.2]

/-- C8, witness: a run whose only input is one redirect rule for
`/old-page`. -/
theorem c8_redirect_only_record_witness :
    (keysOf [("/old-page", (⟨"/old-page", "", ["rankmath-redirect-source"],
        "post", "Posts — Other", "", "", "yes", "https://eridehero.com/new",
        "301", "", "", "", "no", "", ""⟩ : OldRec))]).Nodup
    ∧ (alook [("/old-page", (⟨"/old-page", "", ["rankmath-redirect-source"],
        "post", "Posts — Other", "", "", "yes", "https://eridehero.com/new",
        "301", "", "", "", "no", "", ""⟩ : OldRec))] "/old-page").map (fun r =>
        (r.has_rankmath_redirect, r.rankmath_dest, r.rankmath_type))
      = some ("yes", "https://eridehero.com/new", "301") :=
  c8_redirect_only_record [] [] [("/old-page",
      ⟨"old-page", "https://eridehero.com/new", "301", "active"⟩)] [] []
    [("/old-page", ⟨"/old-page", "", ["rankmath-redirect-source"],
        "post", "Posts — Other", "", "", "yes", "https://eridehero.com/new",
        "301", "", "", "", "no", "", ""⟩)]
    [] [] "/old-page" ⟨"old-page", "https://eridehero.com/new", "301", "active"⟩
    rfl (by decide) (by decide) (by decide)
    (fun fl hfl => absurd hfl (List.not_mem_nil fl))
    (fun e he => absurd he (List.not_mem_nil e))

theorem gscIngestRows_preserve (t : GscTable) (label : String)
    (rows : List (String × String)) (t' : GscTable) (k : String) (e : GscEntry)
    (hrun : gscIngestRows t label rows = some t') (h : alook t k = some e) :
    alook t' k = some e := by
  induction rows generalizing t with
  | nil =>
    injection hrun with hrun
    rwa [← hrun]
  | cons hd rest ih =>
    rcases hd with ⟨url, crawled⟩
    unfold gscIngestRows at hrun
    cases hnu : normalise_url url with
    | none =>
      rw [hnu] at hrun
      exact Option.noConfusion hrun
    | some norm =>
      rw [hnu] at hrun
      replace hrun : gscIngestRows (match alook t norm with
          | some w => t
          | none => t ++ [(norm, ⟨label, crawled, url⟩)]) label rest
          = some t' := hrun
      cases ha : alook t norm with
      | some w =>
        rw [ha] at hrun
        replace hrun : gscIngestRows t label rest = some t' := hrun
        exact ih t hrun h
      | none =>
        rw [ha] at hrun
        replace hrun : gscIngestRows (t ++ [(norm, ⟨label, crawled, url⟩)])
            label rest = some t' := hrun
        exact ih _ hrun (alook_append_some t _ k e h)

theorem gscIngestRows_hit (t : GscTable) (label : String)
    (rows : List (String × String)) (t' : GscTable) (k : String)
    (hrun : gscIngestRows t label rows = some t')
    (hnone : alook t k = none)
    (hmem : ∃ pr ∈ rows, normalise_url pr.1 = some k) :
    ∃ e, alook t' k = some e ∧ e.status = label
      ∧ ∃ c, (e.raw_url, c) ∈ rows ∧ normalise_url e.raw_url = some k := by
  induction rows generalizing t with
  | nil => simp at hmem
  | cons hd rest ih =>
    rcases hd with ⟨url, crawled⟩
    unfold gscIngestRows at hrun
    cases hnu : normalise_url url with
    | none =>
      rw [hnu] at hrun
      exact Option.noConfusion hrun
    | some norm =>
      rw [hnu] at hrun
      replace hrun : gscIngestRows (match alook t norm with
          | some w => t
          | none => t ++ [(norm, ⟨label, crawled, url⟩)]) label rest
          = some t' := hrun
      by_cases hk : norm = k
      · subst hk
        rw [hnone] at hrun
        replace hrun : gscIngestRows (t ++ [(norm, ⟨label, crawled, url⟩)])
            label rest = some t' := hrun
        have hentry : alook (t ++ [(norm, ⟨label, crawled, url⟩)]) norm
            = some ⟨label, crawled, url⟩ := by
          rw [alook_append_none _ _ _ hnone]
          simp [alook]
        exact ⟨⟨label, crawled, url⟩,
          gscIngestRows_preserve _ _ _ _ _ _ hrun hentry, rfl,
          crawled, List.mem_cons_self _ _, hnu⟩
      · rcases hmem with ⟨pr, hpr, hprk⟩
        rcases List.mem_cons.mp hpr with hpr0 | hpr0
        · exfalso
          have hk2 : normalise_url url = some k := by
            rw [← show pr.1 = url from congrArg Prod.fst hpr0]
            exact hprk
          rw [hnu] at hk2
          injection hk2 with hk2
          exact hk hk2
        · cases ha : alook t norm with
          | some w =>
            rw [ha] at hrun
            replace hrun : gscIngestRows t label rest = some t' := hrun
            rcases ih t hrun hnone ⟨pr, hpr0, hprk⟩ with ⟨e, h1, h2, c, h3, h4⟩
            exact ⟨e, h1, h2, c, List.mem_cons_of_mem _ h3, h4⟩
          | none =>
            rw [ha] at hrun
            replace hrun : gscIngestRows (t ++ [(norm, ⟨label, crawled, url⟩)])
                label rest = some t' := hrun
            have hnone2 : alook (t ++ [(norm, ⟨label, crawled, url⟩)]) k = none := by
              rw [alook_append_none _ _ _ hnone]
              simp [alook, hk]
            rcases ih _ hrun hnone2 ⟨pr, hpr0, hprk⟩ with ⟨e, h1, h2, c, h3, h4⟩
            exact ⟨e, h1, h2, c, List.mem_cons_of_mem _ h3, h4⟩

theorem gscIngestFolders_preserve (t : GscTable)
    (folders : List (String × List (String × String))) (t' : GscTable)
    (k : String) (e : GscEntry)
    (hrun : gscIngestFolders t folders = some t') (h : alook t k = some e) :
    alook t' k = some e := by
  induction folders generalizing t with
  | nil =>
    injection hrun with hrun
    rwa [← hrun]
  | cons hd rest ih =>
    rcases hd with ⟨label, rows⟩
    unfold gscIngestFolders at hrun
    cases hr : gscIngestRows t label rows with
    | none =>
      rw [hr] at hrun
      exact Option.noConfusion hrun
    | some t1 =>
      rw [hr] at hrun
      replace hrun : gscIngestFolders t1 rest = some t' := hrun
      exact ih t1 hrun (gscIngestRows_preserve _ _ _ _ _ _ hr h)

theorem addTag_gsc_status (r : OldRec) (t : String) :
    (addTag r t).gsc_status = r.gsc_status := by
  unfold addTag
  split <;> rfl

theorem gscApply_indexed (e : GscEntry) (r : OldRec) (he : e.status = "indexed") :
    (gscApply e r).gsc_status = "indexed" := by
  simp only [gscApply]
  rw [if_pos (Or.inl he)]
  exact he

theorem gscApply_keeps (e : GscEntry) (r : OldRec) (hr : r.gsc_status = "indexed") :
    (gscApply e r).gsc_status = "indexed" := by
  simp only [gscApply]
  by_cases he : e.status = "indexed"
  · rw [if_pos (Or.inl he)]
    exact he
  · rw [if_neg ?_]
    · show (addTag r ("gsc:" ++ e.status)).gsc_status = "indexed"
      rw [addTag_gsc_status]
      exact hr
    · rintro (hx | hx)
      · exact he hx
      · rw [addTag_gsc_status, hr] at hx
        exact absurd hx (by decide)

theorem bool_not_true_down {b : Bool} (h : (!b) = true) : b = false := by
  cases b
  · rfl
  · exact Bool.noConfusion h

theorem gscMergeEntry_of_survives (m : OldMap) (e : GscEntry) (p : String)
    (hs : gscRowSurvives e.raw_url = true) (hp : normalise_path e.raw_url = some p) :
    gscMergeEntry m e = some (updAt (ensure_record m p e.raw_url) p (gscApply e)) := by
  unfold gscRowSurvives at hs
  unfold gscMergeEntry
  cases hu : urlparseE e.raw_url with
  | none =>
    rw [hu] at hs
    exact Bool.noConfusion hs
  | some parsed =>
    rw [hu] at hs
    simp only [hu, hp]
    rw [hp] at hs
    replace hs : (decide (pyLower (hostnameOrEmpty parsed.netloc) = "eridehero.com"
        ∨ pyLower (hostnameOrEmpty parsed.netloc) = "www.eridehero.com") &&
      (!(pyContainsSub p "ck/a?" || pyContainsSub e.raw_url "cx_tag_filter") &&
       !(pyContainsSub e.raw_url "unapproved="
           || pyContainsSub e.raw_url "moderation-hash=") &&
       !(decide (parsed.path = "/") && decide (parsed.query ≠ "")
           && gscHomeQueryJunk parsed.query))) = true := hs
    simp only [Bool.and_eq_true] at hs
    obtain ⟨hs1, ⟨hA, hB⟩, hC⟩ := hs
    have hA2 := Bool.or_eq_false_iff.mp (bool_not_true_down hA)
    have hB2 := Bool.or_eq_false_iff.mp (bool_not_true_down hB)
    have hC2 := bool_not_true_down hC
    have hnA : ¬ (pyContainsSub p "ck/a?" = true
        ∨ pyContainsSub e.raw_url "cx_tag_filter" = true) := by
      rintro (hx | hx)
      · rw [hA2.1] at hx
        exact Bool.noConfusion hx
      · rw [hA2.2] at hx
        exact Bool.noConfusion hx
    have hnB : ¬ (pyContainsSub e.raw_url "unapproved=" = true
        ∨ pyContainsSub e.raw_url "moderation-hash=" = true) := by
      rintro (hx | hx)
      · rw [hB2.1] at hx
        exact Bool.noConfusion hx
      · rw [hB2.2] at hx
        exact Bool.noConfusion hx
    have hnC : ¬ (parsed.path = "/" ∧ parsed.query ≠ ""
        ∧ gscHomeQueryJunk parsed.query = true) := by
      rintro ⟨hx1, hx2, hx3⟩
      have hx : (decide (parsed.path = "/") && decide (parsed.query ≠ "")
          && gscHomeQueryJunk parsed.query) = true := by
        rw [decide_eq_true hx1, decide_eq_true hx2, hx3]
        rfl
      rw [hx] at hC2
      exact Bool.noConfusion hC2
    rw [if_neg (not_not_intro (of_decide_eq_true hs1)), if_neg hnA,
      if_neg hnB, if_neg hnC]

/-- Preservation half of C1: once a record's status is `indexed`, no
later crawl-status entry overwrites it. -/
theorem gscStep_pres_indexed (m : OldMap) (e : GscEntry) (m' : OldMap)
    (p : String) (r : OldRec)
    (h : alook m p = some r) (hr : r.gsc_status = "indexed")
    (hrun : gscMergeEntry m e = some m') :
    (alook m' p).map OldRec.gsc_status = some "indexed" := by
  unfold gscMergeEntry at hrun
  split at hrun
  · exact Option.noConfusion hrun
  · split at hrun
    · injection hrun with hrun
      rw [← hrun, h, Option.map_some', hr]
    · split at hrun
      · exact Option.noConfusion hrun
      · rename_i path hpath
        split at hrun
        · injection hrun with hrun
          rw [← hrun, h, Option.map_some', hr]
        · split at hrun
          · injection hrun with hrun
            rw [← hrun, h, Option.map_some', hr]
          · split at hrun
            · injection hrun with hrun
              rw [← hrun, h, Option.map_some', hr]
            · injection hrun with hrun
              rw [← hrun]
              by_cases hpp : p = path
              · subst hpp
                rw [alook_stepAt_self, h, Option.map_some']
                rw [gscApply_keeps e _ (by rw [Option.getD_some]; exact hr)]
              · rw [alook_stepAt_ne _ _ _ _ _ hpp, h, Option.map_some', hr]

theorem phaseGsc_pres_indexed (m : OldMap) (T : GscTable) (m' : OldMap) (p : String)
    (hin : (alook m p).map OldRec.gsc_status = some "indexed")
    (hrun : phaseGsc m T = some m') :
    (alook m' p).map OldRec.gsc_status = some "indexed" := by
  induction T generalizing m with
  | nil =>
    injection hrun with hrun
    rwa [← hrun]
  | cons hd rest ih =>
    rcases hd with ⟨k0, e0⟩
    unfold phaseGsc at hrun
    cases hstep : gscMergeEntry m e0 with
    | none =>
      rw [hstep] at hrun
      exact Option.noConfusion hrun
    | some m1 =>
      rw [hstep] at hrun
      replace hrun : phaseGsc m1 rest = some m' := hrun
      cases hmp : alook m p with
      | none =>
        rw [hmp] at hin
        exact Option.noConfusion hin
      | some r =>
        rw [hmp, Option.map_some'] at hin
        injection hin with hin
        exact ih m1 (gscStep_pres_indexed m e0 m1 p r hmp hin hstep) hrun

theorem phaseGsc_hit_indexed (m : OldMap) (T : GscTable) (m' : OldMap)
    (k : String) (e : GscEntry) (p : String)
    (hmem : (k, e) ∈ T) (he : e.status = "indexed")
    (hs : gscRowSurvives e.raw_url = true)
    (hp : normalise_path e.raw_url = some p)
    (hrun : phaseGsc m T = some m') :
    (alook m' p).map OldRec.gsc_status = some "indexed" := by
  induction T generalizing m with
  | nil => exact absurd hmem (List.not_mem_nil _)
  | cons hd rest ih =>
    rcases hd with ⟨k0, e0⟩
    unfold phaseGsc at hrun
    cases hstep : gscMergeEntry m e0 with
    | none =>
      rw [hstep] at hrun
      exact Option.noConfusion hrun
    | some m1 =>
      rw [hstep] at hrun
      replace hrun : phaseGsc m1 rest = some m' := hrun
      rcases List.mem_cons.mp hmem with heq | hmem0
      · injection heq with h1 h2
        subst h2
        rw [gscMergeEntry_of_survives m e p hs hp] at hstep
        injection hstep with hstep
        apply phaseGsc_pres_indexed m1 rest m' p ?_ hrun
        rw [← hstep, alook_stepAt_self, Option.map_some',
          gscApply_indexed e _ he]
      · exact ih m1 hmem0 hrun

theorem rmApply_gsc (rd : RmRule) (r : OldRec) :
    (rmApply rd r).gsc_status = r.gsc_status := by
  show (addTag r "rankmath-redirect-source").gsc_status = r.gsc_status
  rw [addTag_gsc_status]

theorem taApply_gsc (td : TaRec) (r : OldRec) :
    (taApply td r).gsc_status = r.gsc_status := by
  show (addTag r "thirstyaffiliates").gsc_status = r.gsc_status
  rw [addTag_gsc_status]

theorem phaseRankmath_pres_gscMap (m : OldMap) (rules : List (String × RmRule))
    (p : String)
    (hin : (alook m p).map OldRec.gsc_status = some "indexed") :
    (alook (phaseRankmath m rules) p).map OldRec.gsc_status = some "indexed" := by
  induction rules generalizing m with
  | nil => exact hin
  | cons hd rest ih =>
    rcases hd with ⟨q, rd⟩
    show (alook (phaseRankmath (updAt (ensure_record m q "") q (rmApply rd)) rest)
      p).map OldRec.gsc_status = some "indexed"
    apply ih
    by_cases hpq : p = q
    · subst hpq
      cases hmp : alook m p with
      | none =>
        rw [hmp] at hin
        exact Option.noConfusion hin
      | some r =>
        rw [hmp, Option.map_some'] at hin
        injection hin with hin
        rw [alook_stepAt_self, hmp, Option.map_some', Option.getD_some,
          rmApply_gsc, hin]
    · rw [alook_stepAt_ne _ _ _ _ _ hpq]
      exact hin

theorem phaseTa_pres_gscMap (m : OldMap) (ta : List (String × TaRec)) (p : String)
    (hin : (alook m p).map OldRec.gsc_status = some "indexed") :
    (alook (phaseTa m ta) p).map OldRec.gsc_status = some "indexed" := by
  induction ta generalizing m with
  | nil => exact hin
  | cons hd rest ih =>
    rcases hd with ⟨slug, td⟩
    show (alook (phaseTa (updAt (ensure_record m ("/recommends/" ++ slug) "")
      ("/recommends/" ++ slug) (taApply td)) rest) p).map OldRec.gsc_status
      = some "indexed"
    apply ih
    by_cases hpq : p = "/recommends/" ++ slug
    · rw [← hpq]
      cases hmp : alook m p with
      | none =>
        rw [hmp] at hin
        exact Option.noConfusion hin
      | some r =>
        rw [hmp, Option.map_some'] at hin
        injection hin with hin
        rw [alook_stepAt_self, hmp, Option.map_some', Option.getD_some,
          taApply_gsc, hin]
    · rw [alook_stepAt_ne _ _ _ _ _ hpq]
      exact hin

theorem phaseEnrich_pres_gscMap (rank : List (String × RmRule)) (nu : NewMap)
    (m m' : OldMap) (p : String)
    (hrun : phaseEnrich rank nu m = some m')
    (hin : (alook m p).map OldRec.gsc_status = some "indexed") :
    (alook m' p).map OldRec.gsc_status = some "indexed" := by
  cases hmp : alook m p with
  | none =>
    rw [hmp] at hin
    exact Option.noConfusion hin
  | some r =>
    rw [hmp, Option.map_some'] at hin
    injection hin with hin
    rcases phaseEnrich_lookup rank nu m m' hrun p r hmp with ⟨r', henr, h5⟩
    rw [h5, Option.map_some', (enrichRec_fields rank nu p r r' henr).2, hin]

/-- C1: status precedence for `indexed`.  Amended: (1) with the code's
fixed folder ingestion order — `Indexed pages` first — any path `p`
whose Indexed-folder rows for a host+path key `k` all survive the
allow-list/junk filters and normalise to `p` ends with stored status
`indexed`; (2) once a record's status is `indexed`, no later
crawl-status entry overwrites it.  The "regardless of ingestion order"
part of the claim fails: the per-key status table is first-seen-wins
(see the counterexample). -/
theorem c1_indexed_status_precedence :
    (∀ (osm : List (String × String)) (rows0 : List (String × String))
        (restF : List (String × List (String × String)))
        (rank : List (String × RmRule)) (ta : List (String × TaRec))
        (nu : NewMap) (m : OldMap) (k p : String),
      buildOldMap osm (("indexed", rows0) :: restF) rank ta nu = some m →
      (∃ pr ∈ rows0, normalise_url pr.1 = some k) →
      (∀ pr ∈ rows0, normalise_url pr.1 = some k →
        gscRowSurvives pr.1 = true ∧ normalise_path pr.1 = some p) →
      (alook m p).map OldRec.gsc_status = some "indexed")
    ∧ (∀ (m : OldMap) (e : GscEntry) (m' : OldMap) (p : String) (r : OldRec),
        alook m p = some r → r.gsc_status = "indexed" →
        gscMergeEntry m e = some m' →
        (alook m' p).map OldRec.gsc_status = some "indexed") := by
  constructor
  · intro osm rows0 restF rank ta nu m k p hrun hmem hall
    unfold buildOldMap at hrun
    cases hg : buildGscStatuses (("indexed", rows0) :: restF) with
    | none =>
      rw [hg] at hrun
      exact Option.noConfusion hrun
    | some statuses =>
      rw [hg] at hrun
      replace hrun :
          (match phaseGsc (phaseSitemap [] osm) statuses with
           | none => none
           | some m2 => phaseEnrich rank nu (phaseTa (phaseRankmath m2 rank) ta))
          = some m := hrun
      cases h2 : phaseGsc (phaseSitemap [] osm) statuses with
      | none =>
        rw [h2] at hrun
        exact Option.noConfusion hrun
      | some m2 =>
        rw [h2] at hrun
        replace hrun :
            phaseEnrich rank nu (phaseTa (phaseRankmath m2 rank) ta) = some m :=
          hrun
        unfold buildGscStatuses gscIngestFolders at hg
        cases hr0 : gscIngestRows [] "indexed" rows0 with
        | none =>
          rw [hr0] at hg
          exact Option.noConfusion hg
        | some t1 =>
          rw [hr0] at hg
          replace hg : gscIngestFolders t1 restF = some statuses := hg
          rcases gscIngestRows_hit [] "indexed" rows0 t1 k hr0 rfl hmem
            with ⟨e, he1, he2, c, he3, he4⟩
          have he5 : alook statuses k = some e :=
            gscIngestFolders_preserve t1 restF statuses k e hg he1
          have hmemT : (k, e) ∈ statuses := alook_mem _ _ _ he5
          rcases hall (e.raw_url, c) he3 he4 with ⟨hs, hp⟩
          have hgsc := phaseGsc_hit_indexed (phaseSitemap [] osm) statuses m2
            k e p hmemT he2 hs hp h2
          exact phaseEnrich_pres_gscMap rank nu _ m p hrun
            (phaseTa_pres_gscMap _ ta p
              (phaseRankmath_pres_gscMap m2 rank p hgsc))
  · exact gscStep_pres_indexed

/-- Witness for C1 at concrete inputs: with the `Indexed pages` folder
first, the path `/foo`, mentioned in both the indexed and 404 folders,
ends with stored status `indexed`; and merging a further `404` entry
into a map whose `/foo` record is already `indexed` leaves it
`indexed`. -/
theorem c1_indexed_status_precedence_witness :
    (alook [("/foo", (⟨"/foo", "https://eridehero.com/foo", ["gsc:indexed"],
        "post", "Posts — Other", "indexed", "d2", "", "", "", "", "", "",
        "no", "", ""⟩ : OldRec))] "/foo").map OldRec.gsc_status
      = some "indexed"
    ∧ (alook [("/foo", (⟨"/foo", "https://eridehero.com/foo",
        ["gsc:indexed", "gsc:404"], "post", "Posts — Other", "indexed", "d2",
        "", "", "", "", "", "", "no", "", ""⟩ : OldRec))] "/foo").map
        OldRec.gsc_status = some "indexed" := by
  constructor
  · exact c1_indexed_status_precedence.1 []
      [("https://eridehero.com/foo", "d2")]
      [("404", [("https://eridehero.com/foo", "d1")])] [] [] []
      [("/foo", (⟨"/foo", "https://eridehero.com/foo", ["gsc:indexed"],
        "post", "Posts — Other", "indexed", "d2", "", "", "", "", "", "",
        "no", "", ""⟩ : OldRec))]
      "eridehero.com/foo" "/foo" (by decide)
      ⟨("https://eridehero.com/foo", "d2"), by decide, by decide⟩
      (fun pr hpr hk => by
        rw [List.mem_singleton.mp hpr]
        exact ⟨by decide, by decide⟩)
  · exact c1_indexed_status_precedence.2
      [("/foo", (⟨"/foo", "https://eridehero.com/foo", ["gsc:indexed"],
        "post", "Posts — Other", "indexed", "d2", "", "", "", "", "", "",
        "no", "", ""⟩ : OldRec))]
      ⟨"404", "d1", "https://eridehero.com/foo"⟩
      [("/foo", (⟨"/foo", "https://eridehero.com/foo",
        ["gsc:indexed", "gsc:404"], "post", "Posts — Other", "indexed", "d2",
        "", "", "", "", "", "", "no", "", ""⟩ : OldRec))]
      "/foo"
      (⟨"/foo", "https://eridehero.com/foo", ["gsc:indexed"],
        "post", "Posts — Other", "indexed", "d2", "", "", "", "", "", "",
        "no", "", ""⟩ : OldRec)
      (by decide) (by decide) (by decide)

/-- C1 counterexample (closed): with the `Not found (404)` folder
ingested first, the same two crawl rows leave `/foo` with stored status
`404`, not `indexed` — the per-key status table is first-seen-wins, so
the "regardless of ingestion order" half of the claim fails; the code
relies on the fixed `gsc_folders` ordering instead. -/
theorem c1_counterexample :
    (buildOldMap [] [("404", [("https://eridehero.com/foo", "d1")]),
        ("indexed", [("https://eridehero.com/foo", "d2")])] [] [] []).map
      (fun m => (alook m "/foo").map OldRec.gsc_status)
      = some (some "404") := by
  decide

end SeoInv
